import Mathlib

/-!
Verification development for the gemini-cli repository.

The repository ships two TINS-style README specifications (packages/core,
packages/cli) that describe the tool-call lifecycle scheduler, the streaming
turn orchestrator and the continuation controller, together with illustrative
TypeScript for an "API Call Preview" feature
(Extensions_Guide_files/phase_2_core_logic_modifications.ts,
phase_2_config_modifications.ts, phase_1_api_preview_tests.test.ts).

The scheduler / turn / continuation implementations themselves
(coreToolScheduler.ts, turn.ts, client.ts, useReactToolScheduler.ts) are not
part of the repository sources, only their README descriptions are; those
components are therefore modelled from the specification text. The API
preview code is embedded directly from the TypeScript files.
-/

namespace Scheduler

/-- Tool-call arguments: a string-keyed mapping, modelled as an association
list. -/
abbrev Args := List (String × String)

/-- Modelled from the spec: the per-`ToolCall` lifecycle states of the
Tool Call Scheduler (`CoreToolScheduler` is described in the READMEs but its
source `coreToolScheduler.ts` is not in the repository). Terminal states are
`success`, `error` and `cancelled`; the initial state is `validating`. -/
inductive ToolCallState where
  | validating
  | scheduled
  | awaitingApproval
  | executing
  | success
  | error
  | cancelled
deriving DecidableEq, Repr

/-- Whether a state is terminal (`Success`, `Error`, `Cancelled`). -/
def ToolCallState.isTerminal : ToolCallState → Bool
  | .success => true
  | .error => true
  | .cancelled => true
  | _ => false

/-- Whether a state is `AwaitingApproval`. -/
def ToolCallState.isAwaiting : ToolCallState → Bool
  | .awaitingApproval => true
  | _ => false

/-- Modelled from the spec: the `ConfirmationOutcome` enumeration supplied by
the external confirmation collaborator. -/
inductive ConfirmationOutcome where
  | proceedOnce
  | proceedAlways
  | proceedAlwaysServer
  | modifyThenProceed
  | cancel
deriving DecidableEq, Repr

/-- Modelled from the spec: a `ToolCallRequest` as created from a model event
declaring a function call. -/
structure ToolCallRequest where
  callId : String
  name : String
  arguments : Args
  clientInitiated : Bool
deriving DecidableEq, Repr

/-- The structured content of a `ToolCallResult`: a successful tool output, an
error-shaped response, or the distinct cancellation marker. -/
inductive ResponseContent where
  | output (content : String)
  | errorResponse (descriptor : String)
  | cancellationMarker
deriving DecidableEq, Repr

/-- Modelled from the spec: a `ToolCallResult`, produced exactly once per
request on terminal states only. -/
structure ToolCallResult where
  callId : String
  content : ResponseContent
deriving DecidableEq, Repr

/-- Modelled from the spec: a `Tool` collaborator, with a name, a parameter
validation function, a confirmation requirement, an execution function and an
optional origin server (for remote tool sources). -/
structure Tool where
  name : String
  validate : Args → Option String
  needsConfirm : Args → Bool
  execute : Args → Except String String
  originServer : Option String

/-- Modelled from the spec: the per-session allow-list, keyed by tool name or,
for remote tool sources, by origin server. -/
structure AllowList where
  tools : List String
  servers : List String
deriving DecidableEq, Repr

/-- Whether the allow-list lets a tool skip confirmation: either the tool name
is allow-listed, or the origin server of the tool is. -/
def AllowList.allows (al : AllowList) (t : Tool) : Bool :=
  decide (t.name ∈ al.tools) ||
    (match t.originServer with
     | some s => decide (s ∈ al.servers)
     | none => false)

/-- Modelled from the spec: the scheduler-owned `ToolCall` record
(`request`, `resolvedTool`, `state`, `result`, `confirmationOutcome`; the
timing fields `startedAt` / `durationMs` are omitted as no claim concerns
them). -/
structure ToolCallRecord where
  request : ToolCallRequest
  tool : Option Tool
  state : ToolCallState
  result : Option ToolCallResult
  outcome : Option ConfirmationOutcome

/-- Observable scheduler events: one per individual state transition, one per
allow-list mutation, one per invocation of the execution function of a tool, and
the single batch-complete notification carrying the ordered terminal
records. -/
inductive SchedEvent where
  | stateChange (callId : String) (st : ToolCallState)
  | allowListAdd (key : String)
  | executeInvoked (callId : String)
  | batchComplete (records : List ToolCallRecord)

/-- Whether an event is the batch-complete notification. -/
def isBatchCompleteEvent : SchedEvent → Bool
  | .batchComplete _ => true
  | _ => false

/-- The state carried by one event, if it is a state change for `c`. -/
def stateChangeFor (e : SchedEvent) (c : String) : Option ToolCallState :=
  match e with
  | .stateChange c2 st => if c2 = c then some st else none
  | _ => none

/-- The state a call is in according to an event log: the state carried by the
last `stateChange` event for that `callId`, if any. -/
def lastState : List SchedEvent → String → Option ToolCallState
  | [], _ => none
  | e :: rest, c => (lastState rest c).elim (stateChangeFor e c) some

/-- Modelled from the spec: steps 1-3 of `schedule` for one request — resolve
the named tool from the registry (unresolved name gives an immediate terminal
`Error` with a "tool not found" descriptor), run parameter validation
(invalid parameters give a terminal `Error` naming the tool), then either
transition to `AwaitingApproval` (confirmation required and not allow-listed)
or to `Scheduled`. Returns the record and the state-transition events. -/
def initialProcess (registry : List Tool) (al : AllowList) (req : ToolCallRequest) :
    ToolCallRecord × List SchedEvent :=
  match registry.find? (fun t => t.name == req.name) with
  | none =>
      ({ request := req
         tool := none
         state := .error
         result := some { callId := req.callId
                          content := .errorResponse ("tool not found: " ++ req.name) }
         outcome := none },
       [.stateChange req.callId .validating, .stateChange req.callId .error])
  | some t =>
      match t.validate req.arguments with
      | some msg =>
          ({ request := req
             tool := some t
             state := .error
             result := some { callId := req.callId
                              content := .errorResponse (t.name ++ ": " ++ msg) }
             outcome := none },
           [.stateChange req.callId .validating, .stateChange req.callId .error])
      | none =>
          if t.needsConfirm req.arguments && !(al.allows t) then
            ({ request := req
               tool := some t
               state := .awaitingApproval
               result := none
               outcome := none },
             [.stateChange req.callId .validating,
              .stateChange req.callId .awaitingApproval])
          else
            ({ request := req
               tool := some t
               state := .scheduled
               result := none
               outcome := none },
             [.stateChange req.callId .validating,
              .stateChange req.callId .scheduled])

/-- Modelled from the spec: step 1-3 processing of a whole batch, in request
order. -/
def initialRecords (registry : List Tool) (al : AllowList) :
    List ToolCallRequest → List ToolCallRecord × List SchedEvent
  | [] => ([], [])
  | req :: rest =>
      let p := initialProcess registry al req
      let ps := initialRecords registry al rest
      (p.1 :: ps.1, p.2 ++ ps.2)

/-- Modelled from the spec: step 4 of `schedule` — apply one
`ConfirmationOutcome` to a call in `AwaitingApproval`.
`ProceedAlways` / `ProceedAlwaysServer` mutate the session allow-list before
the transition to `Scheduled`; `ModifyThenProceed` obtains new arguments from
the edit collaborator and re-enters `Validating` (re-running schema validation
and the confirmation check); `Cancel` transitions directly to `Cancelled` with
only a cancellation marker as result. -/
def confirmStep (modifyFn : Args → Args) (al : AllowList) (o : ConfirmationOutcome)
    (r : ToolCallRecord) : ToolCallRecord × AllowList × List SchedEvent :=
  match o with
  | .cancel =>
      ({ r with
          state := .cancelled
          result := some { callId := r.request.callId
                           content := .cancellationMarker }
          outcome := some .cancel },
       al, [.stateChange r.request.callId .cancelled])
  | .proceedOnce =>
      ({ r with state := .scheduled, outcome := some .proceedOnce }, al,
       [.stateChange r.request.callId .scheduled])
  | .proceedAlways =>
      match r.tool with
      | some t =>
          ({ r with state := .scheduled, outcome := some .proceedAlways },
           { al with tools := t.name :: al.tools },
           [.allowListAdd t.name, .stateChange r.request.callId .scheduled])
      | none =>
          ({ r with state := .scheduled, outcome := some .proceedAlways }, al,
           [.stateChange r.request.callId .scheduled])
  | .proceedAlwaysServer =>
      match r.tool with
      | some t =>
          match t.originServer with
          | some s =>
              ({ r with state := .scheduled, outcome := some .proceedAlwaysServer },
               { al with servers := s :: al.servers },
               [.allowListAdd s, .stateChange r.request.callId .scheduled])
          | none =>
              ({ r with state := .scheduled, outcome := some .proceedAlwaysServer },
               { al with tools := t.name :: al.tools },
               [.allowListAdd t.name, .stateChange r.request.callId .scheduled])
      | none =>
          ({ r with state := .scheduled, outcome := some .proceedAlwaysServer }, al,
           [.stateChange r.request.callId .scheduled])
  | .modifyThenProceed =>
      match r.tool with
      | none =>
          ({ r with
              state := .error
              result := some { callId := r.request.callId
                               content := .errorResponse "tool not resolved" }
              outcome := some .modifyThenProceed },
           al,
           [.stateChange r.request.callId .validating,
            .stateChange r.request.callId .error])
      | some t =>
          let newArgs := modifyFn r.request.arguments
          match t.validate newArgs with
          | some msg =>
              ({ r with
                  request := { r.request with arguments := newArgs }
                  state := .error
                  result := some { callId := r.request.callId
                                   content := .errorResponse (t.name ++ ": " ++ msg) }
                  outcome := some .modifyThenProceed },
               al,
               [.stateChange r.request.callId .validating,
                .stateChange r.request.callId .error])
          | none =>
              if t.needsConfirm newArgs && !(al.allows t) then
                ({ r with
                    request := { r.request with arguments := newArgs }
                    state := .awaitingApproval
                    outcome := some .modifyThenProceed },
                 al,
                 [.stateChange r.request.callId .validating,
                  .stateChange r.request.callId .awaitingApproval])
              else
                ({ r with
                    request := { r.request with arguments := newArgs }
                    state := .scheduled
                    outcome := some .modifyThenProceed },
                 al,
                 [.stateChange r.request.callId .validating,
                  .stateChange r.request.callId .scheduled])

/-- Modelled from the spec: apply one confirmation outcome to the first call of
the batch that is in `AwaitingApproval`, leaving every other record
untouched. -/
def resolveStep (modifyFn : Args → Args) (al : AllowList) (o : ConfirmationOutcome) :
    List ToolCallRecord → List ToolCallRecord × AllowList × List SchedEvent
  | [] => ([], al, [])
  | r :: rs =>
      if r.state.isAwaiting then
        let p := confirmStep modifyFn al o r
        (p.1 :: rs, p.2.1, p.2.2)
      else
        let p := resolveStep modifyFn al o rs
        (r :: p.1, p.2.1, p.2.2)

/-- Modelled from the spec: the confirmation phase — while some call is in
`AwaitingApproval`, consume the next outcome supplied by the confirmation
collaborator and apply it. The outcome list plays the role of the external
successive answers of the collaborator. -/
def resolveConfirmations (modifyFn : Args → Args) :
    List ConfirmationOutcome → AllowList → List ToolCallRecord →
    List ToolCallRecord × AllowList × List SchedEvent
  | [], al, records => (records, al, [])
  | o :: os, al, records =>
      if records.any (fun r => r.state.isAwaiting) then
        let p := resolveStep modifyFn al o records
        let q := resolveConfirmations modifyFn os p.2.1 p.1
        (q.1, q.2.1, p.2.2 ++ q.2.2)
      else (records, al, [])

/-- Modelled from the spec: steps 5-6 of `schedule` for one call — a
`Scheduled` call transitions to `Executing`, the execution function of its tool is
invoked, and the call ends in `Success` or `Error` (an execution fault is
treated as `Error`, never as a scheduler crash). Calls not in `Scheduled`
are left untouched. -/
def executeCall (r : ToolCallRecord) : ToolCallRecord × List SchedEvent :=
  match r.state with
  | .scheduled =>
      match r.tool with
      | some t =>
          match t.execute r.request.arguments with
          | .ok out =>
              ({ r with
                  state := .success
                  result := some { callId := r.request.callId
                                   content := .output out } },
               [.stateChange r.request.callId .executing,
                .executeInvoked r.request.callId,
                .stateChange r.request.callId .success])
          | .error e =>
              ({ r with
                  state := .error
                  result := some { callId := r.request.callId
                                   content := .errorResponse e } },
               [.stateChange r.request.callId .executing,
                .executeInvoked r.request.callId,
                .stateChange r.request.callId .error])
      | none =>
          ({ r with
              state := .error
              result := some { callId := r.request.callId
                               content := .errorResponse "tool not resolved" } },
           [.stateChange r.request.callId .error])
  | _ => (r, [])

/-- Modelled from the spec: the execution phase over the whole batch (one
linearisation of the concurrent executions; the spec gives no ordering
guarantee between independent calls). -/
def executeAll : List ToolCallRecord → List ToolCallRecord × List SchedEvent
  | [] => ([], [])
  | r :: rs =>
      let p := executeCall r
      let ps := executeAll rs
      (p.1 :: ps.1, p.2 ++ ps.2)

/-- The observable result of one `schedule` run: the terminal records in input
order, the updated session allow-list, and the full event log. -/
structure ScheduleResult where
  records : List ToolCallRecord
  allowList : AllowList
  events : List SchedEvent

/-- Modelled from the spec: the `schedule(requests)` operation of the Tool
Call Scheduler. Requests are validated and confirmation-gated in order;
confirmations are resolved by the external collaborator (the `outcomes`
list); execution starts only once no call is in `Validating` or
`AwaitingApproval`; when every call is terminal, the single batch-complete
notification carrying the ordered records is emitted. Returns `none` when the
outcomes supplied by the confirmation collaborator do not suffice to resolve every
`AwaitingApproval` call (the batch then never completes). -/
def runSchedule (registry : List Tool) (modifyFn : Args → Args)
    (outcomes : List ConfirmationOutcome) (al : AllowList)
    (requests : List ToolCallRequest) : Option ScheduleResult :=
  let a := initialRecords registry al requests
  let b := resolveConfirmations modifyFn outcomes al a.1
  if b.1.any (fun r => r.state.isAwaiting) then none
  else
    let c := executeAll b.1
    some { records := c.1, allowList := b.2.1,
           events := a.2 ++ b.2.2 ++ c.2 ++ [.batchComplete c.1] }

end Scheduler

namespace TurnModel

/-- Modelled from the spec: a raw fragment produced by the Content Stream
Source (`Fragment` is one of text, thought, functionCall, usage, done). -/
inductive Fragment where
  | text (s : String)
  | thought (subject description : String)
  | functionCall (name : String) (args : Scheduler.Args) (id : Option String)
  | usage (counts : Nat)
  | done

/-- Modelled from the spec: the uniform `StreamEvent` sequence produced by the
Turn Orchestrator (the `ChatCompressed` variant is omitted as no claim
concerns it). -/
inductive StreamEvent where
  | content (s : String)
  | thought (subject description : String)
  | toolCallRequest (req : Scheduler.ToolCallRequest)
  | userCancelled
  | error (descriptor : String)
  | usageMetadata (counts : Nat)
deriving DecidableEq, Repr

/-- Whether a stream event is an `Error` event. -/
def StreamEvent.isError : StreamEvent → Bool
  | .error _ => true
  | _ => false

/-- Modelled from the spec: the state a Turn threads along — the accumulated
pending tool-call requests, the terminal `ToolCall` records of the batch
already completed earlier in the session (read by the Continuation
Controller), a counter used to generate a `callId` when the backend omits
one, and the remembered usage statistics. -/
structure TurnState where
  pendingToolCalls : List Scheduler.ToolCallRequest
  priorRecords : List Scheduler.ToolCallRecord
  nextCallIdx : Nat
  lastUsage : Option Nat

/-- Modelled from the spec: mapping of one raw fragment to stream events —
thought annotations map to `Thought`, text to `Content`, a function-call
fragment is appended to the pending list (generating a `callId` when absent)
and surfaced as `ToolCallRequest`, usage statistics map to `UsageMetadata`
and are remembered. -/
def processFragment (st : TurnState) : Fragment → TurnState × List StreamEvent
  | .text s => (st, [.content s])
  | .thought a b => (st, [.thought a b])
  | .functionCall name args id =>
      let req : Scheduler.ToolCallRequest :=
        { callId := id.getD ("call-" ++ toString st.nextCallIdx)
          name := name
          arguments := args
          clientInitiated := false }
      ({ st with
          pendingToolCalls := st.pendingToolCalls ++ [req]
          nextCallIdx := st.nextCallIdx + 1 },
       [.toolCallRequest req])
  | .usage n => ({ st with lastUsage := some n }, [.usageMetadata n])
  | .done => (st, [])

/-- Modelled from the spec: fold `processFragment` over the received
fragments, in order. -/
def runTurnAux : TurnState → List Fragment → TurnState × List StreamEvent
  | st, [] => (st, [])
  | st, f :: rest =>
      let p := processFragment st f
      let q := runTurnAux p.1 rest
      (q.1, p.2 ++ q.2)

/-- Modelled from the spec: a source stream — the fragments successfully
received, followed by an optional transport failure that terminated the
stream. -/
structure SourceStream where
  fragments : List Fragment
  failure : Option String

/-- Modelled from the spec: one Turn of the Turn Orchestrator. Each received
fragment is mapped to events; if the source fails, exactly one `Error` event
carrying the descriptor is yielded and the sequence terminates (the
orchestrator itself does not retry). -/
def runTurn (st : TurnState) (src : SourceStream) : List StreamEvent × TurnState :=
  let p := runTurnAux st src.fragments
  match src.failure with
  | some d => (p.2 ++ [.error d], p.1)
  | none => (p.2, p.1)

end TurnModel

namespace ContinuationModel

/-- Modelled from the spec: what one Turn produced, as seen by the
Continuation Controller — whether the batch had tool calls, whether the turn
carried new information, and whether the "who should speak next" heuristic
(`checkNextSpeaker`) says the model intends to keep going. -/
structure TurnOutcome where
  hadToolCalls : Bool
  newInformation : Bool
  modelWantsToContinue : Bool
deriving DecidableEq, Repr

/-- Modelled from the spec: how a Turn was opened — fresh user input, a
continuation carrying tool results, or a synthetic "continue" directive. -/
inductive TurnKind where
  | userTurn
  | toolContinuation
  | syntheticContinuation
deriving DecidableEq, Repr

/-- Whether a turn was opened by the synthetic "continue" directive. -/
def TurnKind.isSynthetic : TurnKind → Bool
  | .syntheticContinuation => true
  | _ => false

/-- Whether a turn was a continuation-only turn with no tool calls and no new
information (the bound the spec places on autonomous self-continuation). -/
def bareContinuation (k : TurnKind) (out : TurnOutcome) : Bool :=
  k.isSynthetic && !out.hadToolCalls && !out.newInformation

/-- Modelled from the spec: the decision of the Continuation Controller to open a
synthetic continuation Turn — only when the batch produced zero tool calls,
the heuristic says the model intends to keep going, and the turn just
finished was not itself a continuation-only turn with no tool calls and no
new information. -/
def shouldSelfContinue (k : TurnKind) (out : TurnOutcome) : Bool :=
  !out.hadToolCalls && out.modelWantsToContinue && !(bareContinuation k out)

/-- Modelled from the spec: the agent loop driven by the Continuation
Controller. Each opened Turn consumes the next environment-supplied outcome;
a batch with tool calls is followed by a continuation Turn carrying the
results; otherwise a synthetic continuation Turn is opened only when
`shouldSelfContinue` allows it. Returns the list of turns actually run, in
order, with the kind each was opened as. -/
def runLoop : TurnKind → List TurnOutcome → List (TurnKind × TurnOutcome)
  | _, [] => []
  | k, out :: rest =>
      (k, out) ::
        (if out.hadToolCalls then runLoop .toolContinuation rest
         else if shouldSelfContinue k out then runLoop .syntheticContinuation rest
         else [])

end ContinuationModel

namespace Preview

/-- Format for displaying the previewed API call
(`phase_2_config_modifications.ts`). -/
inductive PreviewFormat where
  | summary
  | json
deriving DecidableEq, Repr

/-- `DebugApiPreviewOptions` of `phase_2_config_modifications.ts`: both fields
optional. -/
structure DebugApiPreviewOptions where
  previewApiCallEnabled : Option Bool
  previewApiCallFormat : Option PreviewFormat
deriving DecidableEq, Repr

/-- `DebugOptions` of `phase_2_config_modifications.ts`. -/
structure DebugOptions where
  apiPreview : Option DebugApiPreviewOptions
deriving DecidableEq, Repr

/-- `HypotheticalConfigParameters` of `phase_2_config_modifications.ts`. -/
structure HypotheticalConfigParameters where
  sessionId : String
  model : String
  targetDir : String
  debugOptions : Option DebugOptions
deriving DecidableEq, Repr

/-- The resolved (defaulted) API-preview options stored by the
`HypotheticalConfig` constructor. -/
structure ResolvedDebugApiPreviewOptions where
  previewApiCallEnabled : Bool
  previewApiCallFormat : PreviewFormat
deriving DecidableEq, Repr

/-- `HypotheticalConfig` of `phase_2_config_modifications.ts`, after its
constructor has resolved the debug options. -/
structure HypotheticalConfig where
  sessionId : String
  model : String
  targetDir : String
  resolvedApiPreview : ResolvedDebugApiPreviewOptions
deriving DecidableEq, Repr

/-- The `HypotheticalConfig` constructor: resolves
`params.debugOptions?.apiPreview?.previewApiCallEnabled ?? false` and
`params.debugOptions?.apiPreview?.previewApiCallFormat ?? summary`. -/
def HypotheticalConfig.ofParams (params : HypotheticalConfigParameters) :
    HypotheticalConfig :=
  { sessionId := params.sessionId
    model := params.model
    targetDir := params.targetDir
    resolvedApiPreview :=
      { previewApiCallEnabled :=
          ((params.debugOptions.bind DebugOptions.apiPreview).bind
            DebugApiPreviewOptions.previewApiCallEnabled).getD false
        previewApiCallFormat :=
          ((params.debugOptions.bind DebugOptions.apiPreview).bind
            DebugApiPreviewOptions.previewApiCallFormat).getD PreviewFormat.summary } }

/-- `Config.isDebugApiPreviewEnabled` of `phase_2_config_modifications.ts`. -/
def HypotheticalConfig.isDebugApiPreviewEnabled (c : HypotheticalConfig) : Bool :=
  c.resolvedApiPreview.previewApiCallEnabled

/-- `Config.getDebugApiPreviewFormat` of `phase_2_config_modifications.ts`. -/
def HypotheticalConfig.getDebugApiPreviewFormat (c : HypotheticalConfig) : PreviewFormat :=
  c.resolvedApiPreview.previewApiCallFormat

/-- A minimal candidate structure, as yielded by both hypothetical clients. -/
structure Candidate where
  role : String
  text : String
  finishReason : String
deriving DecidableEq, Repr

/-- A response chunk of `phase_2_core_logic_modifications.ts`:
`isPreviewFlag` models the `__isPreview__` marker. -/
structure CoreChunk (Req : Type) where
  isPreviewFlag : Bool
  previewFormatDisplayed : Option PreviewFormat
  previewedPayload : Option Req
  candidates : List Candidate
deriving DecidableEq

/-- A response chunk of `phase_1_api_preview_tests.test.ts`: `isPreviewFlag`
models `__isPreview__`, `previewFormatFlag` models `__previewFormat__`
(a plain string there), `previewPayloadFlag` models `__previewPayload__`. -/
structure TestChunk (Req : Type) where
  isPreviewFlag : Bool
  previewFormatFlag : Option String
  previewPayloadFlag : Option Req
  candidates : List Candidate
deriving DecidableEq

/-- The observable outcome of one `generateContentStream` call: the chunks
yielded, the static captured request payload after the call (the constructor
resets it to null), and how many times the underlying
`generateContentStream` was invoked. -/
structure ClientRun (Req Chunk : Type) where
  chunks : List Chunk
  capturedRequestPayload : Option Req
  serviceCalls : Nat

/-- `JSON.parse(JSON.stringify(request))` on a JSON-serialisable request value
is a deep clone, modelled as the identity on the request value. -/
def deepClone {Req : Type} (r : Req) : Req := r

/-- `HypotheticalGeminiClientWithPreview.generateContentStream` of
`phase_2_core_logic_modifications.ts`: when `config.isDebugApiPreviewEnabled()`
holds, capture a deep clone of the request, yield exactly one
preview-marked chunk and return without calling the actual LLM service;
otherwise delegate to `actualLlmService.generateContentStream(request)`. -/
def HypotheticalGeminiClientWithPreview.generateContentStream {Req : Type}
    (config : HypotheticalConfig) (actualLlmService : Req → List (CoreChunk Req))
    (request : Req) : ClientRun Req (CoreChunk Req) :=
  if config.isDebugApiPreviewEnabled then
    { chunks :=
        [{ isPreviewFlag := true
           previewFormatDisplayed := some config.getDebugApiPreviewFormat
           previewedPayload := some (deepClone request)
           candidates :=
             [{ role := "model"
                text := "[API Call Previewed - Not Sent]"
                finishReason := "STOP" }] }]
      capturedRequestPayload := some (deepClone request)
      serviceCalls := 0 }
  else
    { chunks := actualLlmService request
      capturedRequestPayload := none
      serviceCalls := 1 }

/-- The object returned by the mock-config method `getDebugOptions()` in
`phase_1_api_preview_tests.test.ts` (two accessor methods). -/
structure DebugOptionsView where
  isPreviewApiCallEnabled : Bool
  getPreviewApiCallFormat : String
deriving DecidableEq, Repr

/-- `HypotheticalGeminiClient.generateContentStream` of
`phase_1_api_preview_tests.test.ts`: reads
`config.getDebugOptions()` (which may be undefined, modelled as `none`); the
guard is the optional chain `debugOptions?.isPreviewApiCallEnabled()`, so an
undefined result skips the preview branch and delegates to the mock LLM
service. -/
def HypotheticalGeminiClient.generateContentStream {Req : Type}
    (getDebugOptions : Option DebugOptionsView)
    (mockActualLlmApiService : Req → List (TestChunk Req))
    (request : Req) : ClientRun Req (TestChunk Req) :=
  match getDebugOptions with
  | some opts =>
      if opts.isPreviewApiCallEnabled then
        { chunks :=
            [{ isPreviewFlag := true
               previewFormatFlag := some opts.getPreviewApiCallFormat
               previewPayloadFlag := some (deepClone request)
               candidates :=
                 [{ role := "model"
                    text := "[API Call Previewed - Not Sent]"
                    finishReason := "STOP" }] }]
          capturedRequestPayload := some (deepClone request)
          serviceCalls := 0 }
      else
        { chunks := mockActualLlmApiService request
          capturedRequestPayload := none
          serviceCalls := 1 }
  | none =>
      { chunks := mockActualLlmApiService request
        capturedRequestPayload := none
        serviceCalls := 1 }

end Preview

namespace Scheduler

/-- A concrete confirmation-free tool used to instantiate the scheduler
theorems ("read_file" returning "hello", as in the spec scenario). -/
def wReadTool : Tool :=
  { name := "read_file"
    validate := fun _ => none
    needsConfirm := fun _ => false
    execute := fun _ => Except.ok "hello"
    originServer := none }

/-- A concrete confirmation-requiring tool. -/
def wEditTool : Tool :=
  { name := "replace"
    validate := fun _ => none
    needsConfirm := fun _ => true
    execute := fun _ => Except.ok "edited"
    originServer := none }

/-- A concrete confirmation-requiring remote tool with an origin server. -/
def wMcpTool : Tool :=
  { name := "remote_tool"
    validate := fun _ => none
    needsConfirm := fun _ => true
    execute := fun _ => Except.ok "remote-ok"
    originServer := some "srv1" }

/-- A concrete tool registry. -/
def wRegistry : List Tool := [wReadTool, wEditTool, wMcpTool]

/-- The identity edit collaborator. -/
def wModifyFn : Args → Args := fun a => a

/-- A concrete request for the confirmation-free tool. -/
def wReq1 : ToolCallRequest :=
  { callId := "1"
    name := "read_file"
    arguments := [("path", "a.txt")]
    clientInitiated := false }

/-- A concrete request for the confirmation-requiring tool. -/
def wReq2 : ToolCallRequest :=
  { callId := "2"
    name := "replace"
    arguments := []
    clientInitiated := false }

/-- A concrete request naming an unregistered tool. -/
def wReqMissing : ToolCallRequest :=
  { callId := "9"
    name := "no_such_tool"
    arguments := []
    clientInitiated := false }

/-- The empty session allow-list. -/
def wEmptyAllow : AllowList := { tools := [], servers := [] }

/-- A concrete awaiting-approval record for the confirmation-requiring tool. -/
def wAwaitingRecord : ToolCallRecord :=
  { request := wReq2
    tool := some wEditTool
    state := .awaitingApproval
    result := none
    outcome := none }

/-- The record produced by cancelling the confirmation of `wReq2`. -/
def wCancelRecord : ToolCallRecord :=
  { request := wReq2
    tool := some wEditTool
    state := .cancelled
    result := some { callId := "2", content := .cancellationMarker }
    outcome := some .cancel }

/-- The schedule result of running the batch `[wReq2]` against a `Cancel`
confirmation outcome. -/
def wCancelResult : ScheduleResult :=
  { records := [wCancelRecord]
    allowList := wEmptyAllow
    events := [.stateChange "2" .validating, .stateChange "2" .awaitingApproval,
               .stateChange "2" .cancelled, .batchComplete [wCancelRecord]] }

/-- The record produced by running the confirmation-free request `wReq1`. -/
def wSuccessRecord : ToolCallRecord :=
  { request := wReq1
    tool := some wReadTool
    state := .success
    result := some { callId := "1", content := .output "hello" }
    outcome := none }

/-- The schedule result of running the batch `[wReq1]`. -/
def wSuccessResult : ScheduleResult :=
  { records := [wSuccessRecord]
    allowList := wEmptyAllow
    events := [.stateChange "1" .validating, .stateChange "1" .scheduled,
               .stateChange "1" .executing, .executeInvoked "1",
               .stateChange "1" .success, .batchComplete [wSuccessRecord]] }

end Scheduler

namespace TurnModel

/-- A concrete turn state carrying one already-terminal prior record. -/
def wTurnState : TurnState :=
  { pendingToolCalls := []
    priorRecords :=
      [{ request := Scheduler.wReq1
         tool := some Scheduler.wReadTool
         state := .success
         result := some { callId := "1", content := .output "hello" }
         outcome := none }]
    nextCallIdx := 0
    lastUsage := none }

/-- A concrete source stream that delivers one text fragment and then fails
with a transport error. -/
def wFailStream : SourceStream :=
  { fragments := [.text "streamed text"]
    failure := some "transport error" }

end TurnModel

namespace ContinuationModel

/-- A concrete pure-text turn outcome where the heuristic says the model
wants to keep speaking. -/
def wOutContinue : TurnOutcome :=
  { hadToolCalls := false
    newInformation := false
    modelWantsToContinue := true }

end ContinuationModel

namespace Preview

/-- A concrete config with the API preview explicitly enabled (json format). -/
def wConfigOn : HypotheticalConfig :=
  HypotheticalConfig.ofParams
    { sessionId := "session-123"
      model := "gemini-pro"
      targetDir := "/path/to/project"
      debugOptions := some
        { apiPreview := some
            { previewApiCallEnabled := some true
              previewApiCallFormat := some .json } } }

/-- A concrete config with the API preview explicitly disabled. -/
def wConfigOff : HypotheticalConfig :=
  HypotheticalConfig.ofParams
    { sessionId := "session-123"
      model := "gemini-pro"
      targetDir := "/path/to/project"
      debugOptions := some
        { apiPreview := some
            { previewApiCallEnabled := some false
              previewApiCallFormat := none } } }

/-- Parameters with `debugOptions` entirely omitted. -/
def wParamsNoDebug : HypotheticalConfigParameters :=
  { sessionId := "session-123"
    model := "gemini-pro"
    targetDir := "/path/to/project"
    debugOptions := none }

/-- A concrete mock LLM service for the phase-2 client. -/
def wCoreService : String → List (CoreChunk String) := fun r =>
  [{ isPreviewFlag := false
     previewFormatDisplayed := none
     previewedPayload := none
     candidates := [{ role := "model", text := "Mock LLM response to: " ++ r, finishReason := "STOP" }] }]

/-- A concrete mock LLM service for the phase-1 client. -/
def wMockService : String → List (TestChunk String) := fun r =>
  [{ isPreviewFlag := false
     previewFormatFlag := none
     previewPayloadFlag := none
     candidates := [{ role := "model", text := "Mock LLM response to: " ++ r, finishReason := "STOP" }] }]

end Preview

open Scheduler TurnModel ContinuationModel Preview

/-- Fragment processing never emits an `Error` event and never touches the
terminal records of the prior batch. -/
theorem runTurnAux_no_error (fs : List Fragment) :
    ∀ st : TurnState,
      (runTurnAux st fs).2.filter StreamEvent.isError = []
      ∧ (runTurnAux st fs).1.priorRecords = st.priorRecords := by
  induction fs with
  | nil => intro st; simp [runTurnAux]
  | cons f rest ih =>
      intro st
      cases f <;>
        simp [runTurnAux, processFragment, StreamEvent.isError, List.filter_append,
          (ih _).1, (ih _).2]

/-- C6: when a transport error from the Content Stream Source terminates a
Turn, the failure surfaces as exactly one turn-level `Error` event, and every
tool call of the already-completed batch that had reached a terminal state
keeps its record (and hence its result) unchanged. -/
theorem c6_transport_error_single_event (st : TurnState) (src : SourceStream)
    (d : String) (hf : src.failure = some d) :
    (runTurn st src).1.filter StreamEvent.isError = [StreamEvent.error d]
  ∧ (runTurn st src).2.priorRecords = st.priorRecords
  ∧ (∀ r ∈ st.priorRecords, r.state.isTerminal = true →
      r ∈ (runTurn st src).2.priorRecords) := by
  have h := runTurnAux_no_error src.fragments st
  refine ⟨?_, ?_, ?_⟩
  · simp [runTurn, hf, List.filter_append, h.1, StreamEvent.isError]
  · simp [runTurn, hf, h.2]
  · intro r hr _
    simpa [runTurn, hf, h.2] using hr

/-- Witness for C6 at a concrete turn state and failing stream. -/
theorem c6_transport_error_single_event_witness :
    (runTurn wTurnState wFailStream).1.filter StreamEvent.isError =
        [StreamEvent.error "transport error"]
  ∧ (runTurn wTurnState wFailStream).2.priorRecords = wTurnState.priorRecords :=
  ⟨(c6_transport_error_single_event wTurnState wFailStream "transport error" rfl).1,
   (c6_transport_error_single_event wTurnState wFailStream "transport error" rfl).2.1⟩

/-- After a continuation-only turn with no tool calls and no new information,
the loop opens no further turn. -/
theorem runLoop_bare_stops (outs : List TurnOutcome) :
    ∀ (k0 : TurnKind) (pre post : List (TurnKind × TurnOutcome))
      (a : TurnKind × TurnOutcome),
      runLoop k0 outs = pre ++ a :: post → bareContinuation a.1 a.2 = true →
      post = [] := by
  induction outs with
  | nil =>
      intro k0 pre post a h _
      simp [runLoop] at h
  | cons out rest ih =>
      intro k0 pre post a h hbare
      rw [runLoop] at h
      cases pre with
      | nil =>
          rw [List.nil_append] at h
          obtain ⟨ha, hpost⟩ := List.cons.injEq .. ▸ h
          subst ha
          simp only [bareContinuation, Bool.and_eq_true, Bool.not_eq_true'] at hbare
          have hssc : shouldSelfContinue k0 out = false := by
            simp [shouldSelfContinue, bareContinuation, hbare.1.1, hbare.1.2, hbare.2]
          rw [hbare.1.2] at hpost
          rw [hssc] at hpost
          simp only [Bool.false_eq_true, if_false] at hpost
          exact hpost.symm
      | cons p pre2 =>
          rw [List.cons_append] at h
          have htail : (if out.hadToolCalls then runLoop TurnKind.toolContinuation rest
              else if shouldSelfContinue k0 out then runLoop TurnKind.syntheticContinuation rest
              else []) = pre2 ++ a :: post := (List.cons.injEq .. ▸ h).2
          by_cases h1 : out.hadToolCalls = true
          · rw [if_pos h1] at htail
            exact ih _ _ _ _ htail hbare
          · rw [if_neg h1] at htail
            by_cases h2 : shouldSelfContinue k0 out = true
            · rw [if_pos h2] at htail
              exact ih _ _ _ _ htail hbare
            · rw [if_neg h2] at htail
              exact absurd htail
                (List.append_ne_nil_of_right_ne_nil pre2 (List.cons_ne_nil a post)).symm

/-- C7: the autonomous "keep speaking" recursion is bounded — a synthetic
continuation Turn is never opened after a continuation-only turn with no tool
calls and no new information (the turn after such a bare continuation simply
does not exist), and on a run where no turn produces tool calls or new
information the loop stops after at most one continuation (at most two turns
in total). -/
theorem c7_continuation_bounded (k0 : TurnKind) (outs : List TurnOutcome) :
    (∀ (pre post : List (TurnKind × TurnOutcome)) (a : TurnKind × TurnOutcome),
        runLoop k0 outs = pre ++ a :: post → bareContinuation a.1 a.2 = true →
        post = [])
  ∧ ((∀ o ∈ outs, o.hadToolCalls = false ∧ o.newInformation = false) →
      (runLoop .userTurn outs).length ≤ 2) := by
  constructor
  · intro pre post a h hb
    exact runLoop_bare_stops outs k0 pre post a h hb
  · intro hall
    cases outs with
    | nil => simp [runLoop]
    | cons o rest =>
        have ho := hall o (by simp)
        rw [runLoop]
        rw [ho.1]
        simp only [Bool.false_eq_true, if_false]
        by_cases hw : shouldSelfContinue TurnKind.userTurn o = true
        · rw [if_pos hw]
          cases rest with
          | nil => simp [runLoop]
          | cons o2 rest2 =>
              have ho2 := hall o2 (by simp)
              rw [runLoop]
              rw [ho2.1]
              have hssc : shouldSelfContinue TurnKind.syntheticContinuation o2 = false := by
                simp [shouldSelfContinue, bareContinuation, TurnKind.isSynthetic,
                  ho2.1, ho2.2]
              simp [hssc]
        · rw [if_neg hw]
          simp

/-- Witness for C7 at concrete outcome lists. -/
theorem c7_continuation_bounded_witness :
    (runLoop TurnKind.userTurn [wOutContinue, wOutContinue, wOutContinue]).length ≤ 2
  ∧ ([] : List (TurnKind × TurnOutcome)) = [] :=
  ⟨(c7_continuation_bounded .userTurn [wOutContinue, wOutContinue, wOutContinue]).2
      (by decide),
   (c7_continuation_bounded .syntheticContinuation [wOutContinue]).1 []
      [] (.syntheticContinuation, wOutContinue) (by decide) (by decide)⟩

/-- C8: with the debug preview enabled, the phase-2 client yields exactly one
chunk, marked as a preview and carrying a payload structurally equal to the
request, and never invokes the actual LLM service; with it disabled, the
client yields exactly the chunks of the service (none preview-marked) and
delegates exactly once. -/
theorem c8_preview_stream_behavior {Req : Type} (config : HypotheticalConfig)
    (actualLlmService : Req → List (CoreChunk Req)) (request : Req)
    (hsvc : ∀ ch ∈ actualLlmService request, ch.isPreviewFlag = false) :
    (config.isDebugApiPreviewEnabled = true →
      ∃ ch : CoreChunk Req,
        (HypotheticalGeminiClientWithPreview.generateContentStream config
            actualLlmService request).chunks = [ch]
        ∧ ch.isPreviewFlag = true
        ∧ ch.previewedPayload = some request
        ∧ (HypotheticalGeminiClientWithPreview.generateContentStream config
            actualLlmService request).serviceCalls = 0)
  ∧ (config.isDebugApiPreviewEnabled = false →
      (HypotheticalGeminiClientWithPreview.generateContentStream config
          actualLlmService request).chunks = actualLlmService request
      ∧ (HypotheticalGeminiClientWithPreview.generateContentStream config
          actualLlmService request).serviceCalls = 1
      ∧ ∀ ch ∈ (HypotheticalGeminiClientWithPreview.generateContentStream config
          actualLlmService request).chunks, ch.isPreviewFlag = false) := by
  constructor
  · intro he
    unfold HypotheticalGeminiClientWithPreview.generateContentStream
    rw [if_pos he]
    exact ⟨_, rfl, rfl, rfl, rfl⟩
  · intro he
    refine ⟨?_, ?_, ?_⟩
    · simp [HypotheticalGeminiClientWithPreview.generateContentStream, he]
    · simp [HypotheticalGeminiClientWithPreview.generateContentStream, he]
    · have hchunks : (HypotheticalGeminiClientWithPreview.generateContentStream config
          actualLlmService request).chunks = actualLlmService request := by
        simp [HypotheticalGeminiClientWithPreview.generateContentStream, he]
      rw [hchunks]
      exact hsvc

/-- Witness for C8 at a concrete config, service and request. -/
theorem c8_preview_stream_behavior_witness :
    (∃ ch : CoreChunk String,
      (HypotheticalGeminiClientWithPreview.generateContentStream wConfigOn
          wCoreService "Hello LLM").chunks = [ch]
      ∧ ch.isPreviewFlag = true
      ∧ ch.previewedPayload = some "Hello LLM"
      ∧ (HypotheticalGeminiClientWithPreview.generateContentStream wConfigOn
          wCoreService "Hello LLM").serviceCalls = 0)
  ∧ (HypotheticalGeminiClientWithPreview.generateContentStream wConfigOff
        wCoreService "Hello LLM").chunks = wCoreService "Hello LLM" :=
  ⟨(c8_preview_stream_behavior wConfigOn wCoreService "Hello LLM" (by decide)).1 rfl,
   ((c8_preview_stream_behavior wConfigOff wCoreService "Hello LLM" (by decide)).2 rfl).1⟩

/-- C9: the `HypotheticalConfig` constructor resolves omitted debug-preview
options to the fixed defaults (`false`, `summary`) and returns explicitly
provided values unchanged through the two getters. -/
theorem c9_config_defaults (params : HypotheticalConfigParameters) :
    ((params.debugOptions.bind DebugOptions.apiPreview) = none →
      (HypotheticalConfig.ofParams params).isDebugApiPreviewEnabled = false
      ∧ (HypotheticalConfig.ofParams params).getDebugApiPreviewFormat = .summary)
  ∧ (∀ o, params.debugOptions.bind DebugOptions.apiPreview = some o →
      (o.previewApiCallEnabled = none →
        (HypotheticalConfig.ofParams params).isDebugApiPreviewEnabled = false)
      ∧ (∀ b, o.previewApiCallEnabled = some b →
          (HypotheticalConfig.ofParams params).isDebugApiPreviewEnabled = b)
      ∧ (o.previewApiCallFormat = none →
          (HypotheticalConfig.ofParams params).getDebugApiPreviewFormat = .summary)
      ∧ (∀ f, o.previewApiCallFormat = some f →
          (HypotheticalConfig.ofParams params).getDebugApiPreviewFormat = f)) := by
  constructor
  · intro h
    constructor <;>
      simp [HypotheticalConfig.ofParams, HypotheticalConfig.isDebugApiPreviewEnabled,
        HypotheticalConfig.getDebugApiPreviewFormat, h]
  · intro o ho
    refine ⟨?_, ?_, ?_, ?_⟩
    · intro h
      simp [HypotheticalConfig.ofParams, HypotheticalConfig.isDebugApiPreviewEnabled, ho, h]
    · intro b h
      simp [HypotheticalConfig.ofParams, HypotheticalConfig.isDebugApiPreviewEnabled, ho, h]
    · intro h
      simp [HypotheticalConfig.ofParams, HypotheticalConfig.getDebugApiPreviewFormat, ho, h]
    · intro f h
      simp [HypotheticalConfig.ofParams, HypotheticalConfig.getDebugApiPreviewFormat, ho, h]

/-- Witness for C9 at parameters with `debugOptions` omitted entirely. -/
theorem c9_config_defaults_witness :
    (HypotheticalConfig.ofParams wParamsNoDebug).isDebugApiPreviewEnabled = false
  ∧ (HypotheticalConfig.ofParams wParamsNoDebug).getDebugApiPreviewFormat = .summary :=
  (c9_config_defaults wParamsNoDebug).1 rfl

/-- C10: when `config.getDebugOptions()` returns undefined, the phase-1 client
performs no preview — it yields exactly the chunks of the underlying service (no
preview-marked chunk), leaves the static captured payload null, and delegates
exactly once to the underlying service. -/
theorem c10_missing_debug_options_no_preview {Req : Type}
    (mockActualLlmApiService : Req → List (TestChunk Req)) (request : Req)
    (hsvc : ∀ ch ∈ mockActualLlmApiService request, ch.isPreviewFlag = false) :
    (HypotheticalGeminiClient.generateContentStream none mockActualLlmApiService
        request).chunks = mockActualLlmApiService request
  ∧ (∀ ch ∈ (HypotheticalGeminiClient.generateContentStream none
        mockActualLlmApiService request).chunks, ch.isPreviewFlag = false)
  ∧ (HypotheticalGeminiClient.generateContentStream none mockActualLlmApiService
        request).capturedRequestPayload = none
  ∧ (HypotheticalGeminiClient.generateContentStream none mockActualLlmApiService
        request).serviceCalls = 1 := by
  refine ⟨rfl, ?_, rfl, rfl⟩
  exact hsvc

/-- Witness for C10 at a concrete mock service and request. -/
theorem c10_missing_debug_options_no_preview_witness :
    (HypotheticalGeminiClient.generateContentStream none wMockService
        "Test missing debugOptions").chunks = wMockService "Test missing debugOptions"
  ∧ (HypotheticalGeminiClient.generateContentStream none wMockService
        "Test missing debugOptions").capturedRequestPayload = none
  ∧ (HypotheticalGeminiClient.generateContentStream none wMockService
        "Test missing debugOptions").serviceCalls = 1 := by
  have h := c10_missing_debug_options_no_preview wMockService
    "Test missing debugOptions" (by decide)
  exact ⟨h.1, h.2.2.1, h.2.2.2⟩

/-- A state is `awaitingApproval` exactly when `isAwaiting` holds. -/
theorem isAwaiting_iff (s : ToolCallState) :
    s.isAwaiting = true ↔ s = .awaitingApproval := by
  cases s <;> simp [ToolCallState.isAwaiting]

/-- Splitting a concatenation at an occurrence that cannot lie in the left
part. -/
theorem split_in_suffix {α : Type} (xs : List α) :
    ∀ (ys pre post : List α) (a : α), xs ++ ys = pre ++ a :: post → a ∉ xs →
      ∃ pre2, pre = xs ++ pre2 ∧ ys = pre2 ++ a :: post := by
  induction xs with
  | nil =>
      intro ys pre post a h _
      exact ⟨pre, rfl, h⟩
  | cons x xs ih =>
      intro ys pre post a h hna
      cases pre with
      | nil =>
          rw [List.cons_append, List.nil_append] at h
          obtain ⟨h1, _⟩ := List.cons.injEq .. ▸ h
          exact absurd (List.mem_cons_self x xs) (h1 ▸ hna)
      | cons p pre2 =>
          rw [List.cons_append, List.cons_append] at h
          obtain ⟨h1, h2⟩ := List.cons.injEq .. ▸ h
          obtain ⟨pre3, hp, hy⟩ :=
            ih ys pre2 post a h2 (fun hm => hna (List.mem_cons_of_mem x hm))
          exact ⟨pre3, by rw [hp, h1, List.cons_append], hy⟩

/-- `lastState` over a concatenation: the later events take precedence. -/
theorem lastState_append (xs ys : List SchedEvent) (c : String) :
    lastState (xs ++ ys) c = (lastState ys c).elim (lastState xs c) some := by
  induction xs with
  | nil => cases h : lastState ys c <;> simp [lastState, h]
  | cons e xs ih =>
      rw [List.cons_append, lastState, ih, lastState]
      cases h : lastState ys c <;> cases h2 : lastState xs c <;> simp

/-- An event log with no state change for `c` reports no state for `c`. -/
theorem lastState_eq_none (c : String) :
    ∀ evs : List SchedEvent,
      (∀ c2 st, SchedEvent.stateChange c2 st ∈ evs → c2 ≠ c) →
      lastState evs c = none := by
  intro evs
  induction evs with
  | nil => intro _; rfl
  | cons e rest ih =>
      intro h
      have hrest : lastState rest c = none :=
        ih (fun c2 st hm => h c2 st (List.mem_cons_of_mem e hm))
      cases e with
      | stateChange c2 st =>
          have hne : c2 ≠ c := h c2 st (List.mem_cons_self _ _)
          simp [lastState, stateChangeFor, hrest, hne]
      | allowListAdd k => simp [lastState, stateChangeFor, hrest]
      | executeInvoked c2 => simp [lastState, stateChangeFor, hrest]
      | batchComplete rs => simp [lastState, stateChangeFor, hrest]

/-- A reported state comes from a state-change event in the log. -/
theorem lastState_mem (c : String) :
    ∀ (evs : List SchedEvent) (s : ToolCallState), lastState evs c = some s →
      SchedEvent.stateChange c s ∈ evs := by
  intro evs
  induction evs with
  | nil => intro s h; simp [lastState] at h
  | cons e rest ih =>
      intro s h
      rw [lastState] at h
      cases hr : lastState rest c with
      | some s2 =>
          rw [hr] at h
          have hs : s2 = s := by simpa using h
          subst hs
          exact List.mem_cons_of_mem e (ih s2 hr)
      | none =>
          rw [hr] at h
          simp only [Option.elim] at h
          cases e with
          | stateChange c2 st =>
              by_cases hc : c2 = c
              · subst hc
                have hs : st = s := by simpa [stateChangeFor] using h
                subst hs
                exact List.mem_cons_self _ _
              · simp [stateChangeFor, hc] at h
          | allowListAdd k => simp [stateChangeFor] at h
          | executeInvoked c2 => simp [stateChangeFor] at h
          | batchComplete rs => simp [stateChangeFor] at h

/-- `lastState` on the two-event block produced by the validation phase. -/
theorem lastState_pair (c : String) (s1 s2 : ToolCallState) :
    lastState [.stateChange c s1, .stateChange c s2] c = some s2 := by
  simp [lastState, stateChangeFor]

/-- Full characterisation of `initialProcess` on one request. -/
theorem initialProcess_spec (registry : List Tool) (al : AllowList)
    (req : ToolCallRequest) :
    (initialProcess registry al req).1.request = req
    ∧ (initialProcess registry al req).1.outcome = none
    ∧ (initialProcess registry al req).2 =
        [.stateChange req.callId .validating,
         .stateChange req.callId (initialProcess registry al req).1.state]
    ∧ ((initialProcess registry al req).1.state = .scheduled
        ∨ (initialProcess registry al req).1.state = .awaitingApproval
        ∨ (initialProcess registry al req).1.state = .error)
    ∧ (∀ t, (initialProcess registry al req).1.tool = some t →
        registry.find? (fun tl => tl.name == req.name) = some t)
    ∧ ((initialProcess registry al req).1.state = .awaitingApproval →
        ∃ t, (initialProcess registry al req).1.tool = some t ∧ al.allows t = false)
    ∧ (registry.find? (fun tl => tl.name == req.name) = none →
        (initialProcess registry al req).1.state = .error
        ∧ (initialProcess registry al req).1.result =
            some { callId := req.callId
                   content := .errorResponse ("tool not found: " ++ req.name) }) := by
  cases hf : registry.find? (fun tl => tl.name == req.name) with
  | none => simp [initialProcess, hf]
  | some t =>
      cases hv : t.validate req.arguments with
      | some msg => simp [initialProcess, hf, hv]
      | none =>
          by_cases hc : (t.needsConfirm req.arguments && !(al.allows t)) = true
          · have hparts := Bool.and_eq_true .. ▸ hc
            have hn : t.needsConfirm req.arguments = true := hparts.1
            have hal : al.allows t = false := by simpa using hparts.2
            simp [initialProcess, hf, hv, hn, hal]
          · have hc2 : (t.needsConfirm req.arguments && !(al.allows t)) = false :=
              Bool.not_eq_true .. ▸ hc
            simp [initialProcess, hf, hv, hc2]

/-- The validation phase keeps the requests unchanged, in order. -/
theorem initialRecords_map (registry : List Tool) (al : AllowList) :
    ∀ reqs : List ToolCallRequest,
      (initialRecords registry al reqs).1.map (fun r => r.request) = reqs := by
  intro reqs
  induction reqs with
  | nil => simp [initialRecords]
  | cons req rest ih =>
      simp [initialRecords, (initialProcess_spec registry al req).1, ih]

/-- Per-record properties established by the validation phase. -/
theorem initialRecords_mem (registry : List Tool) (al : AllowList) :
    ∀ reqs : List ToolCallRequest, ∀ r ∈ (initialRecords registry al reqs).1,
      r.outcome = none
      ∧ (r.state = .scheduled ∨ r.state = .awaitingApproval ∨ r.state = .error)
      ∧ (∀ t, r.tool = some t →
          registry.find? (fun tl => tl.name == r.request.name) = some t)
      ∧ (r.state = .awaitingApproval → ∃ t, r.tool = some t ∧ al.allows t = false)
      ∧ (registry.find? (fun tl => tl.name == r.request.name) = none →
          r.state = .error
          ∧ r.result = some { callId := r.request.callId
                              content :=
                                .errorResponse ("tool not found: " ++ r.request.name) }) := by
  intro reqs
  induction reqs with
  | nil => intro r hr; simp [initialRecords] at hr
  | cons req rest ih =>
      intro r hr
      simp only [initialRecords, List.mem_cons] at hr
      rcases hr with hr | hr
      · subst hr
        obtain ⟨h1, h2, _, h4, h5, h6, h7⟩ := initialProcess_spec registry al req
        rw [h1]
        exact ⟨h2, h4, h5, h6, h7⟩
      · exact ih r hr

/-- Every validation-phase event is a state change belonging to one of the
produced records: the initial `Validating` transition or the transition to the
resulting state of each record. -/
theorem initialRecords_events (registry : List Tool) (al : AllowList) :
    ∀ reqs : List ToolCallRequest, ∀ e ∈ (initialRecords registry al reqs).2,
      ∃ r ∈ (initialRecords registry al reqs).1,
        e = .stateChange r.request.callId .validating
        ∨ e = .stateChange r.request.callId r.state := by
  intro reqs
  induction reqs with
  | nil => intro e he; simp [initialRecords] at he
  | cons req rest ih =>
      intro e he
      simp only [initialRecords, List.mem_append] at he
      rcases he with he | he
      · obtain ⟨h1, _, h3, _⟩ := initialProcess_spec registry al req
        rw [h3] at he
        refine ⟨(initialProcess registry al req).1, by simp [initialRecords], ?_⟩
        rw [h1]
        simpa using he
      · obtain ⟨r, hr, hc⟩ := ih e he
        exact ⟨r, by simp [initialRecords, hr], hc⟩

/-- With distinct `callId`s, the validation-phase event log reports exactly
the resulting state of each record. -/
theorem initialRecords_lastState (registry : List Tool) (al : AllowList) :
    ∀ reqs : List ToolCallRequest,
      ((reqs.map (fun q => q.callId)).Nodup) →
      ∀ r ∈ (initialRecords registry al reqs).1,
        lastState (initialRecords registry al reqs).2 r.request.callId = some r.state := by
  intro reqs
  induction reqs with
  | nil => intro _ r hr; simp [initialRecords] at hr
  | cons req rest ih =>
      intro hnd r hr
      rw [List.map_cons, List.nodup_cons] at hnd
      simp only [initialRecords, List.mem_cons] at hr
      obtain ⟨h1, _, h3, _⟩ := initialProcess_spec registry al req
      simp only [initialRecords]
      rcases hr with hr | hr
      · subst hr
        have hnone : lastState (initialRecords registry al rest).2 req.callId = none := by
          apply lastState_eq_none
          intro c2 st hm hceq
          obtain ⟨r2, hr2, hc2⟩ := initialRecords_events registry al rest _ hm
          have hc2cid : c2 = r2.request.callId := by
            rcases hc2 with h | h <;> simp only [SchedEvent.stateChange.injEq] at h <;>
              exact h.1
          have hmem : r2.request.callId ∈ rest.map (fun q => q.callId) := by
            rw [← initialRecords_map registry al rest]
            rw [List.map_map]
            exact List.mem_map_of_mem _ hr2
          rw [hceq] at hc2cid
          exact hnd.1 (hc2cid ▸ hmem)
        rw [h1, lastState_append, hnone]
        simp only [Option.elim]
        rw [h3]
        exact lastState_pair req.callId .validating _
      · have hrec := ih hnd.2 r hr
        rw [lastState_append, hrec]
        rfl

/-- Growing the allow-list never revokes a permission. -/
theorem allows_mono {al al2 : AllowList} (ht : ∀ x ∈ al.tools, x ∈ al2.tools)
    (hs : ∀ x ∈ al.servers, x ∈ al2.servers) (t : Tool) :
    al.allows t = true → al2.allows t = true := by
  intro h
  unfold AllowList.allows at h ⊢
  cases ho : t.originServer with
  | none =>
      rw [ho] at h
      simp only [Bool.or_false, decide_eq_true_eq] at h ⊢
      exact ht _ h
  | some s =>
      rw [ho] at h
      simp only [Bool.or_eq_true, decide_eq_true_eq] at h ⊢
      rcases h with h | h
      · exact Or.inl (ht _ h)
      · exact Or.inr (hs _ h)

/-- `confirmStep` preserves the call identity, the resolved tool, and records
the outcome; the resulting state is `Scheduled`, `AwaitingApproval`, `Error`
or `Cancelled`. -/
theorem confirmStep_record (mf : Args → Args) (al : AllowList)
    (o : ConfirmationOutcome) (r : ToolCallRecord) :
    (confirmStep mf al o r).1.request.callId = r.request.callId
    ∧ (confirmStep mf al o r).1.request.name = r.request.name
    ∧ (confirmStep mf al o r).1.tool = r.tool
    ∧ (confirmStep mf al o r).1.outcome = some o
    ∧ ((confirmStep mf al o r).1.state = .scheduled
        ∨ (confirmStep mf al o r).1.state = .awaitingApproval
        ∨ (confirmStep mf al o r).1.state = .error
        ∨ (confirmStep mf al o r).1.state = .cancelled) := by
  cases o with
  | cancel => simp [confirmStep]
  | proceedOnce => simp [confirmStep]
  | proceedAlways => cases ht : r.tool <;> simp [confirmStep, ht]
  | proceedAlwaysServer =>
      cases ht : r.tool with
      | none => simp [confirmStep, ht]
      | some t => cases hs : t.originServer <;> simp [confirmStep, ht, hs]
  | modifyThenProceed =>
      cases ht : r.tool with
      | none => simp [confirmStep, ht]
      | some t =>
          cases hv : t.validate (mf r.request.arguments) with
          | some msg => simp [confirmStep, ht, hv]
          | none =>
              by_cases hc : (t.needsConfirm (mf r.request.arguments) && !(al.allows t)) = true
              · simp [confirmStep, ht, hv, hc]
              · have hc2 := Bool.not_eq_true .. ▸ hc
                simp [confirmStep, ht, hv, hc2]

/-- A `Cancel` outcome yields the terminal `Cancelled` state with only the
cancellation marker as result. -/
theorem confirmStep_cancel (mf : Args → Args) (al : AllowList) (r : ToolCallRecord) :
    (confirmStep mf al .cancel r).1.state = .cancelled
    ∧ (confirmStep mf al .cancel r).1.result =
        some { callId := r.request.callId, content := .cancellationMarker } := by
  simp [confirmStep]

/-- `confirmStep` only ever extends the allow-list. -/
theorem confirmStep_allow_mono (mf : Args → Args) (al : AllowList)
    (o : ConfirmationOutcome) (r : ToolCallRecord) :
    (∀ x ∈ al.tools, x ∈ (confirmStep mf al o r).2.1.tools)
    ∧ (∀ x ∈ al.servers, x ∈ (confirmStep mf al o r).2.1.servers) := by
  cases o with
  | cancel => simp [confirmStep]
  | proceedOnce => simp [confirmStep]
  | proceedAlways =>
      cases ht : r.tool with
      | none => simp [confirmStep, ht]
      | some t =>
          constructor
          · intro x hx
            simp [confirmStep, ht]
            exact Or.inr hx
          · intro x hx
            simpa [confirmStep, ht] using hx
  | proceedAlwaysServer =>
      cases ht : r.tool with
      | none => simp [confirmStep, ht]
      | some t =>
          cases hs : t.originServer with
          | none =>
              constructor
              · intro x hx
                simp [confirmStep, ht, hs]
                exact Or.inr hx
              · intro x hx
                simpa [confirmStep, ht, hs] using hx
          | some s =>
              constructor
              · intro x hx
                simpa [confirmStep, ht, hs] using hx
              · intro x hx
                simp [confirmStep, ht, hs]
                exact Or.inr hx
  | modifyThenProceed =>
      cases ht : r.tool with
      | none => simp [confirmStep, ht]
      | some t =>
          cases hv : t.validate (mf r.request.arguments) with
          | some msg => simp [confirmStep, ht, hv]
          | none =>
              by_cases hc : (t.needsConfirm (mf r.request.arguments) && !(al.allows t)) = true
              · simp [confirmStep, ht, hv, hc]
              · have hc2 := Bool.not_eq_true .. ▸ hc
                simp [confirmStep, ht, hv, hc2]

/-- Events emitted by `confirmStep` are state changes for the stepped call or
allow-list additions. -/
theorem confirmStep_events (mf : Args → Args) (al : AllowList)
    (o : ConfirmationOutcome) (r : ToolCallRecord) :
    ∀ e ∈ (confirmStep mf al o r).2.2,
      (∃ st, e = .stateChange r.request.callId st) ∨ ∃ k, e = .allowListAdd k := by
  intro e he
  cases o with
  | cancel =>
      simp [confirmStep] at he
      exact Or.inl ⟨_, he⟩
  | proceedOnce =>
      simp [confirmStep] at he
      exact Or.inl ⟨_, he⟩
  | proceedAlways =>
      cases ht : r.tool with
      | none =>
          simp [confirmStep, ht] at he
          exact Or.inl ⟨_, he⟩
      | some t =>
          simp [confirmStep, ht] at he
          rcases he with he | he
          · exact Or.inr ⟨_, he⟩
          · exact Or.inl ⟨_, he⟩
  | proceedAlwaysServer =>
      cases ht : r.tool with
      | none =>
          simp [confirmStep, ht] at he
          exact Or.inl ⟨_, he⟩
      | some t =>
          cases hs : t.originServer with
          | none =>
              simp [confirmStep, ht, hs] at he
              rcases he with he | he
              · exact Or.inr ⟨_, he⟩
              · exact Or.inl ⟨_, he⟩
          | some s =>
              simp [confirmStep, ht, hs] at he
              rcases he with he | he
              · exact Or.inr ⟨_, he⟩
              · exact Or.inl ⟨_, he⟩
  | modifyThenProceed =>
      cases ht : r.tool with
      | none =>
          simp [confirmStep, ht] at he
          rcases he with he | he <;> exact Or.inl ⟨_, he⟩
      | some t =>
          cases hv : t.validate (mf r.request.arguments) with
          | some msg =>
              simp [confirmStep, ht, hv] at he
              rcases he with he | he <;> exact Or.inl ⟨_, he⟩
          | none =>
              by_cases hc : (t.needsConfirm (mf r.request.arguments) && !(al.allows t)) = true
              · simp [confirmStep, ht, hv, hc] at he
                rcases he with he | he <;> exact Or.inl ⟨_, he⟩
              · have hc2 := Bool.not_eq_true .. ▸ hc
                simp [confirmStep, ht, hv, hc2] at he
                rcases he with he | he <;> exact Or.inl ⟨_, he⟩

/-- An `AwaitingApproval` state change emitted by `confirmStep` names the
stepped call, whose tool required confirmation and was not allow-listed. -/
theorem confirmStep_await_origin (mf : Args → Args) (al : AllowList)
    (o : ConfirmationOutcome) (r : ToolCallRecord) :
    ∀ c, SchedEvent.stateChange c .awaitingApproval ∈ (confirmStep mf al o r).2.2 →
      c = r.request.callId ∧ ∃ t, r.tool = some t ∧ al.allows t = false := by
  intro c hm
  cases o with
  | cancel => simp [confirmStep] at hm
  | proceedOnce => simp [confirmStep] at hm
  | proceedAlways => cases ht : r.tool <;> simp [confirmStep, ht] at hm
  | proceedAlwaysServer =>
      cases ht : r.tool with
      | none => simp [confirmStep, ht] at hm
      | some t => cases hs : t.originServer <;> simp [confirmStep, ht, hs] at hm
  | modifyThenProceed =>
      cases ht : r.tool with
      | none => simp [confirmStep, ht] at hm
      | some t =>
          cases hv : t.validate (mf r.request.arguments) with
          | some msg => simp [confirmStep, ht, hv] at hm
          | none =>
              by_cases hc : (t.needsConfirm (mf r.request.arguments) && !(al.allows t)) = true
              · have hparts := Bool.and_eq_true .. ▸ hc
                have hal : al.allows t = false := by simpa using hparts.2
                simp [confirmStep, ht, hv, hc] at hm
                exact ⟨hm, t, rfl, hal⟩
              · have hc2 := Bool.not_eq_true .. ▸ hc
                simp [confirmStep, ht, hv, hc2] at hm

/-- The `confirmStep` event block reports exactly the new
state. -/
theorem confirmStep_lastState (mf : Args → Args) (al : AllowList)
    (o : ConfirmationOutcome) (r : ToolCallRecord) :
    lastState (confirmStep mf al o r).2.2 r.request.callId =
      some (confirmStep mf al o r).1.state := by
  cases o with
  | cancel => simp [confirmStep, lastState, stateChangeFor]
  | proceedOnce => simp [confirmStep, lastState, stateChangeFor]
  | proceedAlways =>
      cases ht : r.tool <;> simp [confirmStep, ht, lastState, stateChangeFor]
  | proceedAlwaysServer =>
      cases ht : r.tool with
      | none => simp [confirmStep, ht, lastState, stateChangeFor]
      | some t =>
          cases hs : t.originServer <;>
            simp [confirmStep, ht, hs, lastState, stateChangeFor]
  | modifyThenProceed =>
      cases ht : r.tool with
      | none => simp [confirmStep, ht, lastState, stateChangeFor]
      | some t =>
          cases hv : t.validate (mf r.request.arguments) with
          | some msg => simp [confirmStep, ht, hv, lastState, stateChangeFor]
          | none =>
              by_cases hc : (t.needsConfirm (mf r.request.arguments) && !(al.allows t)) = true
              · simp [confirmStep, ht, hv, hc, lastState, stateChangeFor]
              · have hc2 := Bool.not_eq_true .. ▸ hc
                simp [confirmStep, ht, hv, hc2, lastState, stateChangeFor]

/-- Complete characterisation of `resolveStep`: either no call awaits approval
and the step is a no-op, or it rewrites exactly the first awaiting call via
`confirmStep`, with the allow-list and events of that step. -/
theorem resolveStep_total_spec (mf : Args → Args) (al : AllowList)
    (o : ConfirmationOutcome) :
    ∀ records : List ToolCallRecord,
      ((∀ r ∈ records, r.state ≠ .awaitingApproval)
        ∧ resolveStep mf al o records = (records, al, []))
      ∨ (∃ pre r1 suf,
          records = pre ++ r1 :: suf
          ∧ (∀ r ∈ pre, r.state ≠ .awaitingApproval)
          ∧ r1.state = .awaitingApproval
          ∧ resolveStep mf al o records =
              (pre ++ (confirmStep mf al o r1).1 :: suf,
               (confirmStep mf al o r1).2.1,
               (confirmStep mf al o r1).2.2)) := by
  intro records
  induction records with
  | nil => exact Or.inl ⟨by simp, rfl⟩
  | cons r rs ih =>
      by_cases ha : r.state.isAwaiting = true
      · have ha2 := (isAwaiting_iff r.state).mp ha
        refine Or.inr ⟨[], r, rs, by simp, by simp, ha2, ?_⟩
        simp [resolveStep, ha]
      · have ha2 : r.state ≠ .awaitingApproval := fun h => ha ((isAwaiting_iff r.state).mpr h)
        have hafalse : r.state.isAwaiting = false := Bool.not_eq_true .. ▸ ha
        rcases ih with ⟨hall, heq⟩ | ⟨pre, r1, suf, hsplit, hpre, hr1, heq⟩
        · refine Or.inl ⟨?_, ?_⟩
          · intro r2 hr2
            rcases List.mem_cons.mp hr2 with h | h
            · subst h; exact ha2
            · exact hall r2 h
          · simp [resolveStep, hafalse, heq]
        · refine Or.inr ⟨r :: pre, r1, suf, by rw [hsplit, List.cons_append], ?_, hr1, ?_⟩
          · intro r2 hr2
            rcases List.mem_cons.mp hr2 with h | h
            · subst h; exact ha2
            · exact hpre r2 h
          · simp [resolveStep, hafalse, heq, List.cons_append]

/-- Unfolding equation for the confirmation phase on a non-empty outcome
list. -/
theorem resolveConfirmations_cons (mf : Args → Args) (o : ConfirmationOutcome)
    (os : List ConfirmationOutcome) (al : AllowList) (records : List ToolCallRecord) :
    resolveConfirmations mf (o :: os) al records =
      if records.any (fun r => r.state.isAwaiting) then
        ((resolveConfirmations mf os (resolveStep mf al o records).2.1
            (resolveStep mf al o records).1).1,
         (resolveConfirmations mf os (resolveStep mf al o records).2.1
            (resolveStep mf al o records).1).2.1,
         (resolveStep mf al o records).2.2 ++
           (resolveConfirmations mf os (resolveStep mf al o records).2.1
              (resolveStep mf al o records).1).2.2)
      else (records, al, []) := rfl

/-- `resolveStep` keeps the identity (id and name) of each call positionally. -/
theorem resolveStep_map (mf : Args → Args) (al : AllowList) (o : ConfirmationOutcome)
    (records : List ToolCallRecord) :
    (resolveStep mf al o records).1.map (fun r => (r.request.callId, r.request.name)) =
      records.map (fun r => (r.request.callId, r.request.name)) := by
  rcases resolveStep_total_spec mf al o records with ⟨_, heq⟩ | ⟨pre, r1, suf, hsplit, _, _, heq⟩
  · rw [heq]
  · rw [heq, hsplit]
    obtain ⟨hc1, hc2, _⟩ := confirmStep_record mf al o r1
    simp [hc1, hc2]

/-- `resolveStep` keeps the id of each call positionally. -/
theorem resolveStep_cid_map (mf : Args → Args) (al : AllowList) (o : ConfirmationOutcome)
    (records : List ToolCallRecord) :
    (resolveStep mf al o records).1.map (fun r => r.request.callId) =
      records.map (fun r => r.request.callId) := by
  have h2 := congrArg (List.map Prod.fst) (resolveStep_map mf al o records)
  simpa [List.map_map, Function.comp] using h2

/-- In a batch with distinct ids, an element of the prefix or suffix around a
split differs in id from the split element. -/
theorem nodup_split_ne {records pre suf : List ToolCallRecord} {r1 : ToolCallRecord}
    (hsplit : records = pre ++ r1 :: suf)
    (hnd : (records.map (fun r => r.request.callId)).Nodup) :
    ∀ r, (r ∈ pre ∨ r ∈ suf) → r.request.callId ≠ r1.request.callId := by
  subst hsplit
  rw [List.map_append, List.map_cons, List.nodup_append] at hnd
  obtain ⟨_, h2, h3⟩ := hnd
  rw [List.nodup_cons] at h2
  intro r hr hceq
  rcases hr with hr | hr
  · exact h3 (List.mem_map_of_mem _ hr) (hceq ▸ List.mem_cons_self _ _)
  · exact h2.1 (hceq ▸ List.mem_map_of_mem (fun r => r.request.callId) hr)

/-- The confirmation phase keeps the identity of each call positionally. -/
theorem resolveConfirmations_map (mf : Args → Args) :
    ∀ (outs : List ConfirmationOutcome) (al : AllowList) (records : List ToolCallRecord),
      (resolveConfirmations mf outs al records).1.map
          (fun r => (r.request.callId, r.request.name)) =
        records.map (fun r => (r.request.callId, r.request.name)) := by
  intro outs
  induction outs with
  | nil => intro al records; simp [resolveConfirmations]
  | cons o os ih =>
      intro al records
      rw [resolveConfirmations_cons]
      by_cases hb : records.any (fun r => r.state.isAwaiting) = true
      · rw [if_pos hb]
        simp only []
        rw [ih, resolveStep_map]
      · rw [if_neg hb]

/-- The confirmation phase keeps the id of each call positionally. -/
theorem resolveConfirmations_cid_map (mf : Args → Args)
    (outs : List ConfirmationOutcome) (al : AllowList) (records : List ToolCallRecord) :
    (resolveConfirmations mf outs al records).1.map (fun r => r.request.callId) =
      records.map (fun r => r.request.callId) := by
  have h2 := congrArg (List.map Prod.fst) (resolveConfirmations_map mf outs al records)
  simpa [List.map_map, Function.comp] using h2

/-- Generic preservation of a per-record invariant through the confirmation
phase: the invariant must be stable under `confirmStep` on awaiting records
and under the allow-list growth a step causes. -/
theorem resolveConfirmations_pred (mf : Args → Args)
    (P : AllowList → ToolCallRecord → Prop)
    (hstep : ∀ al o r, r.state = .awaitingApproval → P al r →
        P (confirmStep mf al o r).2.1 (confirmStep mf al o r).1)
    (hframe : ∀ al o r r2, r2.state = .awaitingApproval → P al r →
        P (confirmStep mf al o r2).2.1 r) :
    ∀ (outs : List ConfirmationOutcome) (al : AllowList) (records : List ToolCallRecord),
      (∀ r ∈ records, P al r) →
      ∀ r ∈ (resolveConfirmations mf outs al records).1,
        P (resolveConfirmations mf outs al records).2.1 r := by
  intro outs
  induction outs with
  | nil =>
      intro al records hall r hr
      simp only [resolveConfirmations] at hr ⊢
      exact hall r hr
  | cons o os ih =>
      intro al records hall
      rw [resolveConfirmations_cons]
      by_cases hb : records.any (fun r => r.state.isAwaiting) = true
      · rw [if_pos hb]
        simp only []
        apply ih
        rcases resolveStep_total_spec mf al o records with ⟨hnone, heq⟩ |
          ⟨pre, r1, suf, hsplit, _, hr1, heq⟩
        · exfalso
          rw [List.any_eq_true] at hb
          obtain ⟨r0, hr0, hr0a⟩ := hb
          exact hnone r0 hr0 ((isAwaiting_iff r0.state).mp hr0a)
        · rw [heq]
          intro r hr
          simp only [List.mem_append, List.mem_cons] at hr
          rcases hr with hr | hr | hr
          · exact hframe al o r r1 hr1 (hall r (hsplit ▸ List.mem_append_left _ hr))
          · subst hr
            exact hstep al o r1 hr1 (hall r1 (hsplit ▸ List.mem_append_right _
              (List.mem_cons_self _ _)))
          · exact hframe al o r r1 hr1 (hall r (hsplit ▸ List.mem_append_right _
              (List.mem_cons_of_mem _ hr)))
      · rw [if_neg hb]
        exact fun r hr => hall r hr

/-- The confirmation phase only ever extends the allow-list. -/
theorem resolveConfirmations_allow_mono (mf : Args → Args) :
    ∀ (outs : List ConfirmationOutcome) (al : AllowList) (records : List ToolCallRecord),
      (∀ x ∈ al.tools, x ∈ (resolveConfirmations mf outs al records).2.1.tools)
      ∧ (∀ x ∈ al.servers, x ∈ (resolveConfirmations mf outs al records).2.1.servers) := by
  intro outs
  induction outs with
  | nil => intro al records; simp [resolveConfirmations]
  | cons o os ih =>
      intro al records
      rw [resolveConfirmations_cons]
      by_cases hb : records.any (fun r => r.state.isAwaiting) = true
      · rw [if_pos hb]
        simp only []
        rcases resolveStep_total_spec mf al o records with ⟨hnone, heq⟩ |
          ⟨pre, r1, suf, hsplit, _, hr1, heq⟩
        · exfalso
          rw [List.any_eq_true] at hb
          obtain ⟨r0, hr0, hr0a⟩ := hb
          exact hnone r0 hr0 ((isAwaiting_iff r0.state).mp hr0a)
        · rw [heq]
          obtain ⟨hct, hcs⟩ := confirmStep_allow_mono mf al o r1
          obtain ⟨hit, his⟩ := ih (confirmStep mf al o r1).2.1
            (pre ++ (confirmStep mf al o r1).1 :: suf)
          exact ⟨fun x hx => hit x (hct x hx), fun x hx => his x (hcs x hx)⟩
      · rw [if_neg hb]
        exact ⟨fun x hx => hx, fun x hx => hx⟩

/-- Every confirmation-phase event is a state change or an allow-list
addition (never an execution or a batch-complete notification). -/
theorem resolveConfirmations_events (mf : Args → Args) :
    ∀ (outs : List ConfirmationOutcome) (al : AllowList) (records : List ToolCallRecord),
      ∀ e ∈ (resolveConfirmations mf outs al records).2.2,
        (∃ c st, e = .stateChange c st) ∨ ∃ k, e = .allowListAdd k := by
  intro outs
  induction outs with
  | nil => intro al records e he; simp [resolveConfirmations] at he
  | cons o os ih =>
      intro al records e he
      rw [resolveConfirmations_cons] at he
      by_cases hb : records.any (fun r => r.state.isAwaiting) = true
      · rw [if_pos hb] at he
        simp only [List.mem_append] at he
        rcases resolveStep_total_spec mf al o records with ⟨hnone, heq⟩ |
          ⟨pre, r1, suf, hsplit, _, hr1, heq⟩
        · exfalso
          rw [List.any_eq_true] at hb
          obtain ⟨r0, hr0, hr0a⟩ := hb
          exact hnone r0 hr0 ((isAwaiting_iff r0.state).mp hr0a)
        · rcases he with he | he
          · rw [heq] at he
            rcases confirmStep_events mf al o r1 e he with ⟨st, hev⟩ | ⟨k, hev⟩
            · exact Or.inl ⟨_, st, hev⟩
            · exact Or.inr ⟨k, hev⟩
          · exact ih _ _ e he
      · rw [if_neg hb] at he
        simp at he

/-- With distinct ids, after the confirmation phase the event log reports
exactly the state of each record. -/
theorem resolveConfirmations_lastState (mf : Args → Args) :
    ∀ (outs : List ConfirmationOutcome) (al : AllowList) (records : List ToolCallRecord)
      (acc : List SchedEvent),
      ((records.map (fun r => r.request.callId)).Nodup) →
      (∀ r ∈ records, lastState acc r.request.callId = some r.state) →
      ∀ r ∈ (resolveConfirmations mf outs al records).1,
        lastState (acc ++ (resolveConfirmations mf outs al records).2.2)
          r.request.callId = some r.state := by
  intro outs
  induction outs with
  | nil =>
      intro al records acc _ hcons r hr
      simp only [resolveConfirmations, List.append_nil] at hr ⊢
      exact hcons r hr
  | cons o os ih =>
      intro al records acc hnd hcons
      rw [resolveConfirmations_cons]
      by_cases hb : records.any (fun r => r.state.isAwaiting) = true
      · rw [if_pos hb]
        simp only []
        rcases resolveStep_total_spec mf al o records with ⟨hnone, heq⟩ |
          ⟨pre, r1, suf, hsplit, _, hr1, heq⟩
        · exfalso
          rw [List.any_eq_true] at hb
          obtain ⟨r0, hr0, hr0a⟩ := hb
          exact hnone r0 hr0 ((isAwaiting_iff r0.state).mp hr0a)
        · rw [heq]
          simp only [← List.append_assoc]
          apply ih
          · have hmap := resolveStep_cid_map mf al o records
            rw [heq] at hmap
            exact hmap ▸ hnd
          · intro r2 hr2
            rw [lastState_append]
            simp only [List.mem_append, List.mem_cons] at hr2
            rcases hr2 with hr2 | hr2 | hr2
            · have hne : r2.request.callId ≠ r1.request.callId :=
                nodup_split_ne hsplit hnd r2 (Or.inl hr2)
              have hnone2 : lastState (confirmStep mf al o r1).2.2 r2.request.callId
                  = none := by
                apply lastState_eq_none
                intro c2 st hm hceq
                rcases confirmStep_events mf al o r1 _ hm with ⟨st2, hev⟩ | ⟨k, hev⟩
                · injection hev with h1 _
                  exact hne (hceq ▸ h1 ▸ rfl)
                · exact SchedEvent.noConfusion hev
              rw [hnone2]
              simp only [Option.elim]
              exact hcons r2 (hsplit ▸ List.mem_append_left _ hr2)
            · subst hr2
              obtain ⟨hc1, _⟩ := confirmStep_record mf al o r1
              rw [hc1, confirmStep_lastState]
              rfl
            · have hne : r2.request.callId ≠ r1.request.callId :=
                nodup_split_ne hsplit hnd r2 (Or.inr hr2)
              have hnone2 : lastState (confirmStep mf al o r1).2.2 r2.request.callId
                  = none := by
                apply lastState_eq_none
                intro c2 st hm hceq
                rcases confirmStep_events mf al o r1 _ hm with ⟨st2, hev⟩ | ⟨k, hev⟩
                · injection hev with h1 _
                  exact hne (hceq ▸ h1 ▸ rfl)
                · exact SchedEvent.noConfusion hev
              rw [hnone2]
              simp only [Option.elim]
              exact hcons r2 (hsplit ▸ List.mem_append_right _
                (List.mem_cons_of_mem _ hr2))
      · rw [if_neg hb]
        simp only [List.append_nil]
        exact fun r hr => hcons r hr

/-- A call whose tool is already allow-listed (at every resolution step) never
has an `AwaitingApproval` state change emitted for it during the confirmation
phase. -/
theorem resolveConfirmations_no_await_event (mf : Args → Args) (cid : String) :
    ∀ (outs : List ConfirmationOutcome) (al : AllowList) (records : List ToolCallRecord),
      (∀ r ∈ records, r.request.callId = cid →
        ∀ t3, r.tool = some t3 → al.allows t3 = true) →
      SchedEvent.stateChange cid .awaitingApproval ∉
        (resolveConfirmations mf outs al records).2.2 := by
  intro outs
  induction outs with
  | nil => intro al records _ hm; simp [resolveConfirmations] at hm
  | cons o os ih =>
      intro al records hinv hm
      rw [resolveConfirmations_cons] at hm
      by_cases hb : records.any (fun r => r.state.isAwaiting) = true
      · rw [if_pos hb] at hm
        simp only [List.mem_append] at hm
        rcases resolveStep_total_spec mf al o records with ⟨hnone, heq⟩ |
          ⟨pre, r1, suf, hsplit, _, hr1, heq⟩
        · rw [List.any_eq_true] at hb
          obtain ⟨r0, hr0, hr0a⟩ := hb
          exact hnone r0 hr0 ((isAwaiting_iff r0.state).mp hr0a)
        · rcases hm with hm | hm
          · rw [heq] at hm
            obtain ⟨hceq, t, htool, hfalse⟩ := confirmStep_await_origin mf al o r1 cid hm
            have htrue := hinv r1
              (hsplit ▸ List.mem_append_right _ (List.mem_cons_self _ _)) hceq.symm t htool
            rw [htrue] at hfalse
            exact Bool.true_eq_false .. ▸ hfalse
          · rw [heq] at hm
            refine ih _ _ ?_ hm
            intro r hr hcid t3 ht3
            obtain ⟨hct, hcs⟩ := confirmStep_allow_mono mf al o r1
            simp only [List.mem_append, List.mem_cons] at hr
            rcases hr with hr | hr | hr
            · exact allows_mono hct hcs t3
                (hinv r (hsplit ▸ List.mem_append_left _ hr) hcid t3 ht3)
            · subst hr
              obtain ⟨hc1, _, hc3, _⟩ := confirmStep_record mf al o r1
              have := hinv r1
                (hsplit ▸ List.mem_append_right _ (List.mem_cons_self _ _))
                (hc1 ▸ hcid) t3 (hc3 ▸ ht3)
              exact allows_mono hct hcs t3 this
            · exact allows_mono hct hcs t3
                (hinv r (hsplit ▸ List.mem_append_right _ (List.mem_cons_of_mem _ hr))
                  hcid t3 ht3)
      · rw [if_neg hb] at hm
        simp at hm

/-- `executeCall` keeps the request, outcome and resolved tool of a record. -/
theorem executeCall_record (r : ToolCallRecord) :
    (executeCall r).1.request = r.request
    ∧ (executeCall r).1.outcome = r.outcome
    ∧ (executeCall r).1.tool = r.tool := by
  cases hs : r.state <;> simp [executeCall, hs]
  cases ht : r.tool with
  | none => simp
  | some t => cases he : t.execute r.request.arguments <;> simp [he]

/-- `executeCall` leaves a record that is not `Scheduled` untouched and emits
no event for it. -/
theorem executeCall_frame (r : ToolCallRecord) (h : r.state ≠ .scheduled) :
    executeCall r = (r, []) := by
  cases hs : r.state <;> simp [executeCall, hs]
  exact absurd hs h

/-- Executing a `Scheduled`, `Error` or `Cancelled` record yields a terminal
record. -/
theorem executeCall_terminal (r : ToolCallRecord)
    (h : r.state = .scheduled ∨ r.state = .error ∨ r.state = .cancelled) :
    (executeCall r).1.state.isTerminal = true := by
  rcases h with h | h | h <;> simp only [executeCall, h]
  · cases ht : r.tool with
    | none => simp [ToolCallState.isTerminal]
    | some t =>
        cases he : t.execute r.request.arguments <;>
          simp [he, ToolCallState.isTerminal]
  · simp [ToolCallState.isTerminal]
  · simp [ToolCallState.isTerminal]

/-- Events of `executeCall` are execution invocations or state changes to
`Executing`, `Success` or `Error`, all for the executed call. -/
theorem executeCall_events (r : ToolCallRecord) :
    ∀ e ∈ (executeCall r).2,
      e = .executeInvoked r.request.callId
      ∨ e = .stateChange r.request.callId .executing
      ∨ e = .stateChange r.request.callId .success
      ∨ e = .stateChange r.request.callId .error := by
  intro e he
  cases hs : r.state
  case scheduled =>
    cases ht : r.tool with
    | none =>
        simp [executeCall, hs, ht] at he
        simp [he]
    | some t =>
        cases hexec : t.execute r.request.arguments with
        | ok out =>
            simp [executeCall, hs, ht, hexec] at he
            rcases he with he | he | he <;> simp [he]
        | error msg =>
            simp [executeCall, hs, ht, hexec] at he
            rcases he with he | he | he <;> simp [he]
  all_goals simp [executeCall, hs] at he

/-- An `executeInvoked` event of `executeCall` names the executed call, which
was `Scheduled`. -/
theorem executeCall_invoked_origin (r : ToolCallRecord) (c : String) :
    SchedEvent.executeInvoked c ∈ (executeCall r).2 →
      c = r.request.callId ∧ r.state = .scheduled := by
  intro hm
  cases hs : r.state
  case scheduled =>
    cases ht : r.tool with
    | none => simp [executeCall, hs, ht] at hm
    | some t =>
        cases hexec : t.execute r.request.arguments <;>
          simp [executeCall, hs, ht, hexec] at hm <;> exact ⟨hm, rfl⟩
  all_goals simp [executeCall, hs] at hm

/-- The execution phase transforms each record by `executeCall`,
positionally; membership version. -/
theorem executeAll_mem :
    ∀ records : List ToolCallRecord, ∀ r2 ∈ (executeAll records).1,
      ∃ r1 ∈ records, r2 = (executeCall r1).1 := by
  intro records
  induction records with
  | nil => intro r2 h; simp [executeAll] at h
  | cons r rs ih =>
      intro r2 h
      simp only [executeAll, List.mem_cons] at h
      rcases h with h | h
      · exact ⟨r, List.mem_cons_self _ _, h⟩
      · obtain ⟨r1, hr1, hr2⟩ := ih r2 h
        exact ⟨r1, List.mem_cons_of_mem _ hr1, hr2⟩

/-- The execution phase keeps the request of each call positionally. -/
theorem executeAll_map :
    ∀ records : List ToolCallRecord,
      (executeAll records).1.map (fun r => r.request) =
        records.map (fun r => r.request) := by
  intro records
  induction records with
  | nil => simp [executeAll]
  | cons r rs ih =>
      simp only [executeAll, List.map_cons, ih]
      rw [(executeCall_record r).1]

/-- Every execution-phase event is an execution invocation or a state change
to `Executing`, `Success` or `Error` for one of the executed records. -/
theorem executeAll_events :
    ∀ records : List ToolCallRecord, ∀ e ∈ (executeAll records).2,
      ∃ r1 ∈ records,
        e = .executeInvoked r1.request.callId
        ∨ e = .stateChange r1.request.callId .executing
        ∨ e = .stateChange r1.request.callId .success
        ∨ e = .stateChange r1.request.callId .error := by
  intro records
  induction records with
  | nil => intro e he; simp [executeAll] at he
  | cons r rs ih =>
      intro e he
      simp only [executeAll, List.mem_append] at he
      rcases he with he | he
      · exact ⟨r, List.mem_cons_self _ _, executeCall_events r e he⟩
      · obtain ⟨r1, hr1, hc⟩ := ih e he
        exact ⟨r1, List.mem_cons_of_mem _ hr1, hc⟩

/-- An `executeInvoked` event of the execution phase names a record that was
`Scheduled` when the phase began. -/
theorem executeAll_invoked_origin :
    ∀ (records : List ToolCallRecord) (c : String),
      SchedEvent.executeInvoked c ∈ (executeAll records).2 →
      ∃ r1 ∈ records, c = r1.request.callId ∧ r1.state = .scheduled := by
  intro records
  induction records with
  | nil => intro c hc; simp [executeAll] at hc
  | cons r rs ih =>
      intro c hc
      simp only [executeAll, List.mem_append] at hc
      rcases hc with hc | hc
      · obtain ⟨h1, h2⟩ := executeCall_invoked_origin r c hc
        exact ⟨r, List.mem_cons_self _ _, h1, h2⟩
      · obtain ⟨r1, hr1, hc1, hc2⟩ := ih c hc
        exact ⟨r1, List.mem_cons_of_mem _ hr1, hc1, hc2⟩

/-- After the execution phase every record whose state was `Scheduled`,
`Error` or `Cancelled` is terminal. -/
theorem executeAll_terminal :
    ∀ records : List ToolCallRecord,
      (∀ r ∈ records, r.state = .scheduled ∨ r.state = .error ∨ r.state = .cancelled) →
      ∀ r ∈ (executeAll records).1, r.state.isTerminal = true := by
  intro records hall r hr
  obtain ⟨r1, hr1, hr2⟩ := executeAll_mem records r hr
  subst hr2
  exact executeCall_terminal r1 (hall r1 hr1)

/-- Characterisation of a completed `schedule` run in terms of its three
phases. -/
theorem runSchedule_some (registry : List Tool) (mf : Args → Args)
    (outs : List ConfirmationOutcome) (al : AllowList)
    (requests : List ToolCallRequest) (res : ScheduleResult)
    (hrun : runSchedule registry mf outs al requests = some res) :
    ((resolveConfirmations mf outs al (initialRecords registry al requests).1).1.any
        (fun r => r.state.isAwaiting)) = false
    ∧ res.records = (executeAll (resolveConfirmations mf outs al
        (initialRecords registry al requests).1).1).1
    ∧ res.allowList = (resolveConfirmations mf outs al
        (initialRecords registry al requests).1).2.1
    ∧ res.events = (initialRecords registry al requests).2
        ++ (resolveConfirmations mf outs al (initialRecords registry al requests).1).2.2
        ++ (executeAll (resolveConfirmations mf outs al
              (initialRecords registry al requests).1).1).2
        ++ [.batchComplete res.records] := by
  simp only [runSchedule] at hrun
  by_cases hb : ((resolveConfirmations mf outs al
      (initialRecords registry al requests).1).1.any (fun r => r.state.isAwaiting)) = true
  · rw [if_pos hb] at hrun
    exact absurd hrun (by simp)
  · have hb2 := Bool.not_eq_true .. ▸ hb
    rw [if_neg hb] at hrun
    injection hrun with h
    subst h
    exact ⟨hb2, rfl, rfl, rfl⟩

/-- C1: a completed batch of N requests yields exactly N terminal records,
with ids matching the input requests in original request order, and exactly
one batch-complete notification, carrying precisely those records. -/
theorem c1_schedule_batch_complete (registry : List Tool) (mf : Args → Args)
    (outs : List ConfirmationOutcome) (al : AllowList)
    (requests : List ToolCallRequest) (res : ScheduleResult)
    (hrun : runSchedule registry mf outs al requests = some res) :
    res.records.length = requests.length
    ∧ res.records.map (fun r => r.request.callId) = requests.map (fun q => q.callId)
    ∧ (∀ r ∈ res.records, r.state.isTerminal = true)
    ∧ res.events.filter isBatchCompleteEvent = [SchedEvent.batchComplete res.records] := by
  obtain ⟨hgate, hrec, _, hev⟩ := runSchedule_some registry mf outs al requests res hrun
  have hmapC : (executeAll (resolveConfirmations mf outs al
        (initialRecords registry al requests).1).1).1.map (fun r => r.request.callId)
      = (resolveConfirmations mf outs al
        (initialRecords registry al requests).1).1.map (fun r => r.request.callId) := by
    have h := congrArg (List.map (fun q : ToolCallRequest => q.callId))
      (executeAll_map (resolveConfirmations mf outs al
        (initialRecords registry al requests).1).1)
    simpa [List.map_map, Function.comp] using h
  have hmapB := resolveConfirmations_cid_map mf outs al
    (initialRecords registry al requests).1
  have hmapA : (initialRecords registry al requests).1.map (fun r => r.request.callId)
      = requests.map (fun q => q.callId) := by
    have h := congrArg (List.map (fun q : ToolCallRequest => q.callId))
      (initialRecords_map registry al requests)
    simpa [List.map_map, Function.comp] using h
  have hmap : res.records.map (fun r => r.request.callId)
      = requests.map (fun q => q.callId) := by
    rw [hrec, hmapC, hmapB, hmapA]
  have hlen : res.records.length = requests.length := by
    have h := congrArg List.length hmap
    simpa using h
  have hB4 := resolveConfirmations_pred mf
    (fun _ r => r.state = .scheduled ∨ r.state = .awaitingApproval
      ∨ r.state = .error ∨ r.state = .cancelled)
    (fun al2 o r2 _ _ => (confirmStep_record mf al2 o r2).2.2.2.2)
    (fun _ _ _ _ _ h => h)
    outs al (initialRecords registry al requests).1
    (fun r hr => by
      rcases (initialRecords_mem registry al requests r hr).2.1 with h | h | h
      · exact Or.inl h
      · exact Or.inr (Or.inl h)
      · exact Or.inr (Or.inr (Or.inl h)))
  have hnaw : ∀ r ∈ (resolveConfirmations mf outs al
      (initialRecords registry al requests).1).1, r.state ≠ .awaitingApproval := by
    intro r hr h
    rw [List.any_eq_false] at hgate
    exact hgate r hr ((isAwaiting_iff r.state).mpr h)
  have hB3 : ∀ r ∈ (resolveConfirmations mf outs al
      (initialRecords registry al requests).1).1,
      r.state = .scheduled ∨ r.state = .error ∨ r.state = .cancelled := by
    intro r hr
    rcases hB4 r hr with h | h | h | h
    · exact Or.inl h
    · exact absurd h (hnaw r hr)
    · exact Or.inr (Or.inl h)
    · exact Or.inr (Or.inr h)
  have hterm : ∀ r ∈ res.records, r.state.isTerminal = true := by
    rw [hrec]
    exact executeAll_terminal _ hB3
  have hfA : (initialRecords registry al requests).2.filter isBatchCompleteEvent = [] := by
    rw [List.filter_eq_nil_iff]
    intro e he
    obtain ⟨r, _, hc⟩ := initialRecords_events registry al requests e he
    rcases hc with hc | hc <;> subst hc <;> simp [isBatchCompleteEvent]
  have hfB : (resolveConfirmations mf outs al
      (initialRecords registry al requests).1).2.2.filter isBatchCompleteEvent = [] := by
    rw [List.filter_eq_nil_iff]
    intro e he
    rcases resolveConfirmations_events mf outs al
      (initialRecords registry al requests).1 e he with ⟨c, st, hc⟩ | ⟨k, hc⟩ <;>
      subst hc <;> simp [isBatchCompleteEvent]
  have hfC : (executeAll (resolveConfirmations mf outs al
      (initialRecords registry al requests).1).1).2.filter isBatchCompleteEvent = [] := by
    rw [List.filter_eq_nil_iff]
    intro e he
    obtain ⟨r, _, hc⟩ := executeAll_events _ e he
    rcases hc with hc | hc | hc | hc <;> subst hc <;> simp [isBatchCompleteEvent]
  refine ⟨hlen, hmap, hterm, ?_⟩
  rw [hev]
  simp [List.filter_append, hfA, hfB, hfC, isBatchCompleteEvent]

/-- Witness for C1: a concrete two-request batch (one resolvable, one
unregistered) completes with both ids in order. -/
theorem c1_schedule_batch_complete_witness :
    ∃ res, runSchedule wRegistry wModifyFn [] wEmptyAllow [wReq1, wReqMissing] = some res
      ∧ res.records.map (fun r => r.request.callId) = ["1", "9"]
      ∧ res.records.length = 2 := by
  cases hrun : runSchedule wRegistry wModifyFn [] wEmptyAllow [wReq1, wReqMissing] with
  | none =>
      have hs : (runSchedule wRegistry wModifyFn [] wEmptyAllow
          [wReq1, wReqMissing]).isSome = true := by decide
      rw [hrun] at hs
      simp at hs
  | some res =>
      obtain ⟨hlen, hmap, _, _⟩ := c1_schedule_batch_complete wRegistry wModifyFn []
        wEmptyAllow [wReq1, wReqMissing] res hrun
      refine ⟨res, rfl, ?_, ?_⟩
      · rw [hmap]
        decide
      · rw [hlen]
        rfl

/-- Generic preservation of a per-record invariant through the execution
phase. -/
theorem executeAll_pred (P : ToolCallRecord → Prop)
    (hstep : ∀ r, P r → P (executeCall r).1) :
    ∀ records : List ToolCallRecord, (∀ r ∈ records, P r) →
      ∀ r ∈ (executeAll records).1, P r := by
  intro records hall r hr
  obtain ⟨r1, hr1, hr2⟩ := executeAll_mem records r hr
  subst hr2
  exact hstep r1 (hall r1 hr1)

/-- A completed run returns records whose ids match the requests in order. -/
theorem runSchedule_cid_map (registry : List Tool) (mf : Args → Args)
    (outs : List ConfirmationOutcome) (al : AllowList)
    (requests : List ToolCallRequest) (res : ScheduleResult)
    (hrun : runSchedule registry mf outs al requests = some res) :
    res.records.map (fun r => r.request.callId) = requests.map (fun q => q.callId) := by
  obtain ⟨_, hrec, _, _⟩ := runSchedule_some registry mf outs al requests res hrun
  have hmapC : (executeAll (resolveConfirmations mf outs al
        (initialRecords registry al requests).1).1).1.map (fun r => r.request.callId)
      = (resolveConfirmations mf outs al
        (initialRecords registry al requests).1).1.map (fun r => r.request.callId) := by
    have h := congrArg (List.map (fun q : ToolCallRequest => q.callId))
      (executeAll_map (resolveConfirmations mf outs al
        (initialRecords registry al requests).1).1)
    simpa [List.map_map, Function.comp] using h
  have hmapA : (initialRecords registry al requests).1.map (fun r => r.request.callId)
      = requests.map (fun q => q.callId) := by
    have h := congrArg (List.map (fun q : ToolCallRequest => q.callId))
      (initialRecords_map registry al requests)
    simpa [List.map_map, Function.comp] using h
  rw [hrec, hmapC, resolveConfirmations_cid_map, hmapA]

/-- C5: a request naming an unregistered tool becomes a terminal `Error`
record with a "tool not found" descriptor, is processed no further, and no
tool execution is ever invoked for it. -/
theorem c5_tool_not_found (registry : List Tool) (mf : Args → Args)
    (outs : List ConfirmationOutcome) (al : AllowList)
    (requests : List ToolCallRequest) (res : ScheduleResult) (q : ToolCallRequest)
    (hnd : (requests.map (fun q2 => q2.callId)).Nodup)
    (hrun : runSchedule registry mf outs al requests = some res)
    (hq : q ∈ requests)
    (hnf : registry.find? (fun t => t.name == q.name) = none) :
    ∃ r ∈ res.records,
      r.request.callId = q.callId
      ∧ r.state = .error
      ∧ r.result = some { callId := q.callId
                          content := .errorResponse ("tool not found: " ++ q.name) }
      ∧ SchedEvent.executeInvoked q.callId ∉ res.events := by
  obtain ⟨hgate, hrec, _, hev⟩ := runSchedule_some registry mf outs al requests res hrun
  have hbaseA : ∀ r ∈ (initialRecords registry al requests).1,
      (r.request.callId = q.callId →
        r.state = .error
        ∧ r.result = some { callId := q.callId
                            content := .errorResponse ("tool not found: " ++ q.name) }) := by
    intro r hr hcid
    have hreq : r.request ∈ requests := by
      rw [← initialRecords_map registry al requests]
      exact List.mem_map_of_mem _ hr
    have hqeq : r.request = q := List.inj_on_of_nodup_map hnd hreq hq hcid
    have h5 := (initialRecords_mem registry al requests r hr).2.2.2.2
    rw [hqeq] at h5
    exact h5 hnf
  have hstepB : ∀ (al2 : AllowList) (o : ConfirmationOutcome) (r2 : ToolCallRecord),
      r2.state = .awaitingApproval →
      (r2.request.callId = q.callId →
        r2.state = .error
        ∧ r2.result = some { callId := q.callId
                             content := .errorResponse ("tool not found: " ++ q.name) }) →
      ((confirmStep mf al2 o r2).1.request.callId = q.callId →
        (confirmStep mf al2 o r2).1.state = .error
        ∧ (confirmStep mf al2 o r2).1.result =
            some { callId := q.callId
                   content := .errorResponse ("tool not found: " ++ q.name) }) := by
    intro al2 o r2 hawait hp hcid
    obtain ⟨hc1, _⟩ := confirmStep_record mf al2 o r2
    have herr := (hp (hc1 ▸ hcid)).1
    rw [hawait] at herr
    exact absurd herr (by simp)
  have hPB := resolveConfirmations_pred mf
    (fun _ r => r.request.callId = q.callId →
      r.state = .error
      ∧ r.result = some { callId := q.callId
                          content := .errorResponse ("tool not found: " ++ q.name) })
    hstepB (fun _ _ _ _ _ h => h) outs al
    (initialRecords registry al requests).1 hbaseA
  have hstepC : ∀ r : ToolCallRecord,
      (r.request.callId = q.callId →
        r.state = .error
        ∧ r.result = some { callId := q.callId
                            content := .errorResponse ("tool not found: " ++ q.name) }) →
      ((executeCall r).1.request.callId = q.callId →
        (executeCall r).1.state = .error
        ∧ (executeCall r).1.result =
            some { callId := q.callId
                   content := .errorResponse ("tool not found: " ++ q.name) }) := by
    intro r hp hcid
    obtain ⟨he1, _, _⟩ := executeCall_record r
    rw [he1] at hcid
    have hr := hp hcid
    have hfr : executeCall r = (r, []) := executeCall_frame r (by rw [hr.1]; simp)
    rw [hfr]
    exact hr
  have hPC : ∀ r ∈ res.records,
      (r.request.callId = q.callId →
        r.state = .error
        ∧ r.result = some { callId := q.callId
                            content := .errorResponse ("tool not found: " ++ q.name) }) := by
    rw [hrec]
    exact executeAll_pred _ hstepC _ (fun r hr => hPB r hr)
  have hcidmap := runSchedule_cid_map registry mf outs al requests res hrun
  have hqin : q.callId ∈ res.records.map (fun r => r.request.callId) := by
    rw [hcidmap]
    exact List.mem_map_of_mem _ hq
  obtain ⟨r, hrmem, hrcid⟩ := List.mem_map.mp hqin
  have hnoexec : SchedEvent.executeInvoked q.callId ∉ res.events := by
    rw [hev]
    intro hm
    simp only [List.mem_append, List.mem_singleton] at hm
    rcases hm with ((hm | hm) | hm) | hm
    · obtain ⟨r2, _, hc⟩ := initialRecords_events registry al requests _ hm
      rcases hc with hc | hc <;> exact SchedEvent.noConfusion hc
    · rcases resolveConfirmations_events mf outs al _ _ hm with ⟨c, st, hc⟩ | ⟨k, hc⟩ <;>
        exact SchedEvent.noConfusion hc
    · obtain ⟨r1, hr1, hc1, hc2⟩ := executeAll_invoked_origin _ _ hm
      have hcontra := (hPB r1 hr1) hc1.symm
      rw [hc2] at hcontra
      exact absurd hcontra.1 (by simp)
    · exact SchedEvent.noConfusion hm
  exact ⟨r, hrmem, hrcid, (hPC r hrmem hrcid).1, (hPC r hrmem hrcid).2, hnoexec⟩

/-- Witness for C5: a one-request batch naming an unregistered tool. -/
theorem c5_tool_not_found_witness :
    ∃ res, runSchedule wRegistry wModifyFn [] wEmptyAllow [wReqMissing] = some res
      ∧ ∃ r ∈ res.records, r.request.callId = "9" ∧ r.state = .error := by
  cases hrun : runSchedule wRegistry wModifyFn [] wEmptyAllow [wReqMissing] with
  | none =>
      have hs : (runSchedule wRegistry wModifyFn [] wEmptyAllow
          [wReqMissing]).isSome = true := by decide
      rw [hrun] at hs
      simp at hs
  | some res =>
      obtain ⟨r, hrm, hcid, hst, _, _⟩ := c5_tool_not_found wRegistry wModifyFn []
        wEmptyAllow [wReqMissing] res wReqMissing (by decide) hrun (by decide) (by rfl)
      exact ⟨res, rfl, r, hrm, hcid, hst⟩

/-- The validation phase keeps the id of each call positionally. -/
theorem initialRecords_cid_map (registry : List Tool) (al : AllowList)
    (requests : List ToolCallRequest) :
    (initialRecords registry al requests).1.map (fun r => r.request.callId)
      = requests.map (fun q => q.callId) := by
  have h := congrArg (List.map (fun q : ToolCallRequest => q.callId))
    (initialRecords_map registry al requests)
  simpa [List.map_map, Function.comp] using h

/-- C3: a call whose confirmation resolved with `Cancel` ends in the terminal
`Cancelled` state, its result is nothing beyond the cancellation marker, and
the execution function of its tool is never invoked. -/
theorem c3_cancel_never_executes (registry : List Tool) (mf : Args → Args)
    (outs : List ConfirmationOutcome) (al : AllowList)
    (requests : List ToolCallRequest) (res : ScheduleResult) (r : ToolCallRecord)
    (hnd : (requests.map (fun q => q.callId)).Nodup)
    (hrun : runSchedule registry mf outs al requests = some res)
    (hmem : r ∈ res.records)
    (hout : r.outcome = some .cancel) :
    r.state = .cancelled
    ∧ r.result = some { callId := r.request.callId, content := .cancellationMarker }
    ∧ SchedEvent.executeInvoked r.request.callId ∉ res.events := by
  obtain ⟨hgate, hrec, _, hev⟩ := runSchedule_some registry mf outs al requests res hrun
  have hbaseA : ∀ rec ∈ (initialRecords registry al requests).1,
      (rec.outcome = some ConfirmationOutcome.cancel →
        rec.state = .cancelled
        ∧ rec.result = some { callId := rec.request.callId
                              content := .cancellationMarker }) := by
    intro rec hr hc
    have h1 := (initialRecords_mem registry al requests rec hr).1
    rw [h1] at hc
    exact Option.noConfusion hc
  have hstepB : ∀ (al2 : AllowList) (o : ConfirmationOutcome) (r2 : ToolCallRecord),
      r2.state = .awaitingApproval →
      (r2.outcome = some ConfirmationOutcome.cancel →
        r2.state = .cancelled
        ∧ r2.result = some { callId := r2.request.callId
                             content := .cancellationMarker }) →
      ((confirmStep mf al2 o r2).1.outcome = some ConfirmationOutcome.cancel →
        (confirmStep mf al2 o r2).1.state = .cancelled
        ∧ (confirmStep mf al2 o r2).1.result =
            some { callId := (confirmStep mf al2 o r2).1.request.callId
                   content := .cancellationMarker }) := by
    intro al2 o r2 _ _ hcancel
    obtain ⟨hc1, _, _, hc4, _⟩ := confirmStep_record mf al2 o r2
    rw [hc4] at hcancel
    have ho : o = .cancel := by
      injection hcancel with h
    subst ho
    obtain ⟨hs, hr⟩ := confirmStep_cancel mf al2 r2
    exact ⟨hs, by rw [hr, hc1]⟩
  have hPB := resolveConfirmations_pred mf
    (fun _ rec => rec.outcome = some ConfirmationOutcome.cancel →
      rec.state = .cancelled
      ∧ rec.result = some { callId := rec.request.callId
                            content := .cancellationMarker })
    hstepB (fun _ _ _ _ _ h => h) outs al
    (initialRecords registry al requests).1 hbaseA
  have hstepC : ∀ rec : ToolCallRecord,
      (rec.outcome = some ConfirmationOutcome.cancel →
        rec.state = .cancelled
        ∧ rec.result = some { callId := rec.request.callId
                              content := .cancellationMarker }) →
      ((executeCall rec).1.outcome = some ConfirmationOutcome.cancel →
        (executeCall rec).1.state = .cancelled
        ∧ (executeCall rec).1.result =
            some { callId := (executeCall rec).1.request.callId
                   content := .cancellationMarker }) := by
    intro rec hp hcancel
    obtain ⟨_, he2, _⟩ := executeCall_record rec
    rw [he2] at hcancel
    have hr := hp hcancel
    have hfr : executeCall rec = (rec, []) := executeCall_frame rec (by rw [hr.1]; simp)
    rw [hfr]
    exact hr
  have hPC : ∀ rec ∈ res.records,
      (rec.outcome = some ConfirmationOutcome.cancel →
        rec.state = .cancelled
        ∧ rec.result = some { callId := rec.request.callId
                              content := .cancellationMarker }) := by
    rw [hrec]
    exact executeAll_pred _ hstepC _ (fun rec h => hPB rec h)
  have hndB : ((resolveConfirmations mf outs al
      (initialRecords registry al requests).1).1.map
        (fun rec => rec.request.callId)).Nodup := by
    rw [resolveConfirmations_cid_map, initialRecords_cid_map]
    exact hnd
  have hnoexec : SchedEvent.executeInvoked r.request.callId ∉ res.events := by
    rw [hev]
    intro hm
    simp only [List.mem_append, List.mem_singleton] at hm
    rcases hm with ((hm | hm) | hm) | hm
    · obtain ⟨r2, _, hc⟩ := initialRecords_events registry al requests _ hm
      rcases hc with hc | hc <;> exact SchedEvent.noConfusion hc
    · rcases resolveConfirmations_events mf outs al _ _ hm with ⟨c, st, hc⟩ | ⟨k, hc⟩ <;>
        exact SchedEvent.noConfusion hc
    · obtain ⟨r1, hr1, hc1, hc2⟩ := executeAll_invoked_origin _ _ hm
      obtain ⟨rin, hrin, hrin2⟩ := executeAll_mem _ r (hrec ▸ hmem)
      obtain ⟨hi1, hi2, _⟩ := executeCall_record rin
      have houtin : rin.outcome = some ConfirmationOutcome.cancel := by
        rw [← hi2, ← hrin2]
        exact hout
      have hcidin : rin.request.callId = r.request.callId := by
        rw [← hi1, ← hrin2]
      have hcanc := hPB rin hrin houtin
      have heqr : r1 = rin :=
        List.inj_on_of_nodup_map hndB hr1 hrin (hc1.symm.trans hcidin.symm)
      rw [heqr, hcanc.1] at hc2
      exact absurd hc2 (by simp)
    · exact SchedEvent.noConfusion hm
  exact ⟨(hPC r hmem hout).1, (hPC r hmem hout).2, hnoexec⟩

/-- Witness for C3: cancelling the single confirmation-requiring call of a
concrete batch. -/
theorem c3_cancel_never_executes_witness :
    runSchedule wRegistry wModifyFn [ConfirmationOutcome.cancel] wEmptyAllow [wReq2]
        = some wCancelResult
    ∧ wCancelRecord.state = .cancelled
    ∧ SchedEvent.executeInvoked wCancelRecord.request.callId ∉ wCancelResult.events := by
  have h := c3_cancel_never_executes wRegistry wModifyFn [ConfirmationOutcome.cancel]
    wEmptyAllow [wReq2] wCancelResult wCancelRecord (by decide) rfl
    (List.mem_singleton.mpr rfl) rfl
  exact ⟨rfl, h.1, h.2.2⟩

/-- A call whose registry resolution is allow-listed at batch start never has
an `AwaitingApproval` state change emitted anywhere in the run. -/
theorem runSchedule_no_await (registry : List Tool) (mf : Args → Args)
    (outs : List ConfirmationOutcome) (al : AllowList)
    (requests : List ToolCallRequest) (res : ScheduleResult) (q : ToolCallRequest)
    (hnd : (requests.map (fun q2 => q2.callId)).Nodup)
    (hrun : runSchedule registry mf outs al requests = some res)
    (hq : q ∈ requests)
    (hallow : ∀ t2, registry.find? (fun tl => tl.name == q.name) = some t2 →
        al.allows t2 = true) :
    SchedEvent.stateChange q.callId .awaitingApproval ∉ res.events := by
  obtain ⟨_, _, _, hev⟩ := runSchedule_some registry mf outs al requests res hrun
  rw [hev]
  intro hm
  simp only [List.mem_append, List.mem_singleton] at hm
  have hreqeq : ∀ r2 ∈ (initialRecords registry al requests).1,
      r2.request.callId = q.callId → r2.request = q := by
    intro r2 hr2 hcid
    have hreq : r2.request ∈ requests := by
      rw [← initialRecords_map registry al requests]
      exact List.mem_map_of_mem _ hr2
    exact List.inj_on_of_nodup_map hnd hreq hq hcid
  rcases hm with ((hm | hm) | hm) | hm
  · obtain ⟨r2, hr2, hc⟩ := initialRecords_events registry al requests _ hm
    rcases hc with hc | hc
    · obtain ⟨_, hc2⟩ := SchedEvent.stateChange.injEq .. ▸ hc
      exact ToolCallState.noConfusion hc2
    · obtain ⟨hc1, hc2⟩ := SchedEvent.stateChange.injEq .. ▸ hc
      obtain ⟨t3, ht3, hfalse⟩ :=
        (initialRecords_mem registry al requests r2 hr2).2.2.2.1 hc2.symm
      have hfind := (initialRecords_mem registry al requests r2 hr2).2.2.1 t3 ht3
      rw [hreqeq r2 hr2 hc1.symm] at hfind
      rw [hallow t3 hfind] at hfalse
      exact Bool.noConfusion hfalse
  · refine resolveConfirmations_no_await_event mf q.callId outs al
      (initialRecords registry al requests).1 ?_ hm
    intro r2 hr2 hcid t3 ht3
    have hfind := (initialRecords_mem registry al requests r2 hr2).2.2.1 t3 ht3
    rw [hreqeq r2 hr2 hcid] at hfind
    exact hallow t3 hfind
  · obtain ⟨r1, _, hc⟩ := executeAll_events _ _ hm
    rcases hc with hc | hc | hc | hc
    · exact SchedEvent.noConfusion hc
    · obtain ⟨_, hc2⟩ := SchedEvent.stateChange.injEq .. ▸ hc
      exact ToolCallState.noConfusion hc2
    · obtain ⟨_, hc2⟩ := SchedEvent.stateChange.injEq .. ▸ hc
      exact ToolCallState.noConfusion hc2
    · obtain ⟨_, hc2⟩ := SchedEvent.stateChange.injEq .. ▸ hc
      exact ToolCallState.noConfusion hc2
  · exact SchedEvent.noConfusion hm

/-- C4: a `ProceedAlways` (or `ProceedAlwaysServer`) outcome mutates the
session allow-list before the call transitions to `Scheduled` (the allow-list
addition event precedes the `Scheduled` state change), and in any later batch
of the same session a call to the same tool (or, for remote tools, to the
same origin server) never enters the `AwaitingApproval` confirmation step. -/
theorem c4_proceed_always_allowlist (mf : Args → Args) (al : AllowList)
    (r : ToolCallRecord) (t : Tool) (srv : String)
    (hr : r.tool = some t) (hst : r.state = .awaitingApproval) :
    ((confirmStep mf al .proceedAlways r).2.2 =
        [.allowListAdd t.name, .stateChange r.request.callId .scheduled]
      ∧ (confirmStep mf al .proceedAlways r).1.state = .scheduled
      ∧ t.name ∈ (confirmStep mf al .proceedAlways r).2.1.tools)
    ∧ (t.originServer = some srv →
        (confirmStep mf al .proceedAlwaysServer r).2.2 =
          [.allowListAdd srv, .stateChange r.request.callId .scheduled]
        ∧ (confirmStep mf al .proceedAlwaysServer r).1.state = .scheduled
        ∧ srv ∈ (confirmStep mf al .proceedAlwaysServer r).2.1.servers)
    ∧ (∀ (registry : List Tool) (mf2 : Args → Args) (outs : List ConfirmationOutcome)
         (requests : List ToolCallRequest) (res : ScheduleResult) (q : ToolCallRequest),
        (requests.map (fun q2 => q2.callId)).Nodup →
        runSchedule registry mf2 outs ((confirmStep mf al .proceedAlways r).2.1)
          requests = some res →
        q ∈ requests → q.name = t.name →
        SchedEvent.stateChange q.callId .awaitingApproval ∉ res.events)
    ∧ (∀ (registry : List Tool) (mf2 : Args → Args) (outs : List ConfirmationOutcome)
         (requests : List ToolCallRequest) (res : ScheduleResult) (q : ToolCallRequest),
        t.originServer = some srv →
        (requests.map (fun q2 => q2.callId)).Nodup →
        runSchedule registry mf2 outs ((confirmStep mf al .proceedAlwaysServer r).2.1)
          requests = some res →
        q ∈ requests →
        (∀ t2, registry.find? (fun tl => tl.name == q.name) = some t2 →
          t2.originServer = some srv) →
        SchedEvent.stateChange q.callId .awaitingApproval ∉ res.events) := by
  refine ⟨?_, ?_, ?_, ?_⟩
  · refine ⟨?_, ?_, ?_⟩ <;> simp [confirmStep, hr]
  · intro hsrv
    refine ⟨?_, ?_, ?_⟩ <;> simp [confirmStep, hr, hsrv]
  · intro registry mf2 outs requests res q hnd2 hrun2 hq2 hname
    refine runSchedule_no_await registry mf2 outs _ requests res q hnd2 hrun2 hq2 ?_
    intro t2 hfind
    have ht2name : t2.name = q.name := by
      have h := List.find?_some hfind
      simpa using h
    have hal2 : (confirmStep mf al .proceedAlways r).2.1
        = { al with tools := t.name :: al.tools } := by
      simp [confirmStep, hr]
    rw [hal2]
    unfold AllowList.allows
    simp [ht2name, hname]
  · intro registry mf2 outs requests res q hsrv hnd2 hrun2 hq2 hserver
    refine runSchedule_no_await registry mf2 outs _ requests res q hnd2 hrun2 hq2 ?_
    intro t2 hfind
    have ht2srv : t2.originServer = some srv := hserver t2 hfind
    have hal2 : (confirmStep mf al .proceedAlwaysServer r).2.1
        = { al with servers := srv :: al.servers } := by
      simp [confirmStep, hr, hsrv]
    rw [hal2]
    unfold AllowList.allows
    rw [ht2srv]
    simp

/-- Witness for C4: after a `ProceedAlways` on the awaiting "replace" call, a
later batch requesting "replace" never awaits approval. -/
theorem c4_proceed_always_allowlist_witness :
    ∃ res,
      runSchedule wRegistry wModifyFn []
          ((confirmStep wModifyFn wEmptyAllow .proceedAlways wAwaitingRecord).2.1)
          [wReq2] = some res
      ∧ SchedEvent.stateChange "2" ToolCallState.awaitingApproval ∉ res.events := by
  cases hrun : runSchedule wRegistry wModifyFn []
      ((confirmStep wModifyFn wEmptyAllow .proceedAlways wAwaitingRecord).2.1)
      [wReq2] with
  | none =>
      have hs : (runSchedule wRegistry wModifyFn []
          ((confirmStep wModifyFn wEmptyAllow .proceedAlways wAwaitingRecord).2.1)
          [wReq2]).isSome = true := by decide
      rw [hrun] at hs
      simp at hs
  | some res =>
      have h := (c4_proceed_always_allowlist wModifyFn wEmptyAllow wAwaitingRecord
          wEditTool "srv1" rfl rfl).2.2.1
        wRegistry wModifyFn [] [wReq2] res wReq2 (by decide) hrun (by decide) rfl
      exact ⟨res, rfl, h⟩

/-- C2: whenever a tool execution is invoked, every call of the batch has a
recorded state (per the event log up to that point), and that state is never
`Validating` or `AwaitingApproval` — execution begins only once every call in
the batch has left those two states. -/
theorem c2_no_execute_while_pending (registry : List Tool) (mf : Args → Args)
    (outs : List ConfirmationOutcome) (al : AllowList)
    (requests : List ToolCallRequest) (res : ScheduleResult)
    (pre post : List SchedEvent) (c : String)
    (hnd : (requests.map (fun q => q.callId)).Nodup)
    (hrun : runSchedule registry mf outs al requests = some res)
    (hsplit : res.events = pre ++ SchedEvent.executeInvoked c :: post) :
    ∀ q ∈ requests, ∃ s, lastState pre q.callId = some s
      ∧ s ≠ ToolCallState.validating ∧ s ≠ ToolCallState.awaitingApproval := by
  obtain ⟨hgate, _, _, hev⟩ := runSchedule_some registry mf outs al requests res hrun
  have hnotAB : SchedEvent.executeInvoked c ∉
      ((initialRecords registry al requests).2
        ++ (resolveConfirmations mf outs al
              (initialRecords registry al requests).1).2.2) := by
    intro hm
    rcases List.mem_append.mp hm with hm | hm
    · obtain ⟨r2, _, hc⟩ := initialRecords_events registry al requests _ hm
      rcases hc with hc | hc <;> exact SchedEvent.noConfusion hc
    · rcases resolveConfirmations_events mf outs al _ _ hm with ⟨c2, st, hc⟩ | ⟨k, hc⟩ <;>
        exact SchedEvent.noConfusion hc
  have hev2 : ((initialRecords registry al requests).2
        ++ (resolveConfirmations mf outs al
              (initialRecords registry al requests).1).2.2)
      ++ ((executeAll (resolveConfirmations mf outs al
              (initialRecords registry al requests).1).1).2
          ++ [.batchComplete res.records])
      = pre ++ SchedEvent.executeInvoked c :: post := by
    rw [← hsplit, hev]
    simp [List.append_assoc]
  obtain ⟨pre2, hpre, hsuf⟩ := split_in_suffix _ _ pre post _ hev2 hnotAB
  have hpre2mem : ∀ e ∈ pre2,
      e ∈ (executeAll (resolveConfirmations mf outs al
            (initialRecords registry al requests).1).1).2
      ∨ e = SchedEvent.batchComplete res.records := by
    intro e he
    have hmm : e ∈ (executeAll (resolveConfirmations mf outs al
          (initialRecords registry al requests).1).1).2
        ++ [SchedEvent.batchComplete res.records] :=
      hsuf.symm ▸ List.mem_append_left _ he
    simpa using hmm
  have hndA : ((initialRecords registry al requests).1.map
      (fun r => r.request.callId)).Nodup := by
    rw [initialRecords_cid_map]
    exact hnd
  have hconsB := resolveConfirmations_lastState mf outs al
    (initialRecords registry al requests).1 (initialRecords registry al requests).2
    hndA (initialRecords_lastState registry al requests hnd)
  have hB4 := resolveConfirmations_pred mf
    (fun _ r => r.state = .scheduled ∨ r.state = .awaitingApproval
      ∨ r.state = .error ∨ r.state = .cancelled)
    (fun al2 o r2 _ _ => (confirmStep_record mf al2 o r2).2.2.2.2)
    (fun _ _ _ _ _ h => h)
    outs al (initialRecords registry al requests).1
    (fun r hr => by
      rcases (initialRecords_mem registry al requests r hr).2.1 with h | h | h
      · exact Or.inl h
      · exact Or.inr (Or.inl h)
      · exact Or.inr (Or.inr (Or.inl h)))
  have hnaw : ∀ r ∈ (resolveConfirmations mf outs al
      (initialRecords registry al requests).1).1, r.state ≠ .awaitingApproval := by
    intro r hr h
    rw [List.any_eq_false] at hgate
    exact hgate r hr ((isAwaiting_iff r.state).mpr h)
  intro q hq
  have hpre2state : ∀ s, lastState pre2 q.callId = some s →
      s = .executing ∨ s = .success ∨ s = .error := by
    intro s hls
    have hmem := lastState_mem q.callId pre2 s hls
    rcases hpre2mem _ hmem with hm | hm
    · obtain ⟨r1, _, hc⟩ := executeAll_events _ _ hm
      rcases hc with hc | hc | hc | hc
      · exact SchedEvent.noConfusion hc
      · obtain ⟨_, hc2⟩ := SchedEvent.stateChange.injEq .. ▸ hc
        exact Or.inl hc2
      · obtain ⟨_, hc2⟩ := SchedEvent.stateChange.injEq .. ▸ hc
        exact Or.inr (Or.inl hc2)
      · obtain ⟨_, hc2⟩ := SchedEvent.stateChange.injEq .. ▸ hc
        exact Or.inr (Or.inr hc2)
    · exact SchedEvent.noConfusion hm
  have hqin : q.callId ∈ (resolveConfirmations mf outs al
      (initialRecords registry al requests).1).1.map (fun r => r.request.callId) := by
    rw [resolveConfirmations_cid_map, initialRecords_cid_map]
    exact List.mem_map_of_mem _ hq
  obtain ⟨rB, hrB, hrBcid⟩ := List.mem_map.mp hqin
  rw [hpre, lastState_append]
  cases hls : lastState pre2 q.callId with
  | some s =>
      refine ⟨s, rfl, ?_, ?_⟩ <;>
        rcases hpre2state s hls with h | h | h <;> subst h <;> simp
  | none =>
      simp only [Option.elim]
      have hsome := hconsB rB hrB
      rw [hrBcid] at hsome
      refine ⟨rB.state, hsome, ?_, ?_⟩
      · rcases hB4 rB hrB with h | h | h | h
        · rw [h]; simp
        · exact absurd h (hnaw rB hrB)
        · rw [h]; simp
        · rw [h]; simp
      · rcases hB4 rB hrB with h | h | h | h
        · rw [h]; simp
        · exact absurd h (hnaw rB hrB)
        · rw [h]; simp
        · rw [h]; simp

/-- Witness for C2 at the concrete single-request batch: at the moment of the
execution invocation, the recorded state of the call is `Executing`. -/
theorem c2_no_execute_while_pending_witness :
    ∃ s, lastState [SchedEvent.stateChange "1" ToolCallState.validating,
        SchedEvent.stateChange "1" ToolCallState.scheduled,
        SchedEvent.stateChange "1" ToolCallState.executing] "1" = some s
      ∧ s ≠ ToolCallState.validating ∧ s ≠ ToolCallState.awaitingApproval :=
  c2_no_execute_while_pending wRegistry wModifyFn [] wEmptyAllow [wReq1] wSuccessResult
    [SchedEvent.stateChange "1" ToolCallState.validating,
     SchedEvent.stateChange "1" ToolCallState.scheduled,
     SchedEvent.stateChange "1" ToolCallState.executing]
    [SchedEvent.stateChange "1" ToolCallState.success,
     SchedEvent.batchComplete [wSuccessRecord]] "1"
    (by decide) rfl rfl wReq1 (by decide)
